import Mathlib

/-!
Verification of the action-sequencing core of `packages/core/src/action.ts`
(loopback-next): metadata extraction (`normalizeKeys`,
`populateActionMetadata`), class inspection (`inspectAction`), constraint
graph construction (`addActionToGraph`, `sortActions`, `sortActionClasses`),
and the sequential executor (`Sequence.run`).

The constraint-sorting collaborator (the `topo` package) is not part of the
repository sources; it is modelled from the specification of the Topological
Sequencer (a stable dependency-count topological sort over named-group
before/after constraints that fails on contradictory constraint sets).
-/

namespace LoopbackAction

/-- Modelled from the spec: one node of the Topological Sequencer's constraint
graph (the `topo` collaborator is absent from the sources).  Every node
carries an insertion sequence number, a `before` list of group names it must
precede, an `after` list of group names it must follow, its own group name,
and an opaque payload. -/
structure TopoItem (γ : Type) where
  seq : Nat
  before : List String
  after : List String
  group : String
  node : γ
deriving Repr, DecidableEq

variable {γ : Type}

/-- Modelled from the spec: item `a` is constrained to appear strictly ahead
of item `b` when `b`'s group occurs in `a`'s `before` list or `a`'s group
occurs in `b`'s `after` list. -/
def MustPrecede (a b : TopoItem γ) : Prop :=
  b.group ∈ a.before ∨ a.group ∈ b.after

instance (a b : TopoItem γ) : Decidable (MustPrecede a b) := by
  unfold MustPrecede; infer_instance

/-- Modelled from the spec: an item is ready to be emitted when no pending
item is constrained to precede it. -/
def Ready (pending : List (TopoItem γ)) (b : TopoItem γ) : Prop :=
  ∀ a ∈ pending, ¬ MustPrecede a b

instance (pending : List (TopoItem γ)) (b : TopoItem γ) : Decidable (Ready pending b) := by
  unfold Ready; infer_instance

/-- Modelled from the spec: remove the first ready item from the pending list
(the insertion-order tie-break of the sequencer). The first argument is the
full pending list against which readiness is judged. -/
def extractReady (all : List (TopoItem γ)) : List (TopoItem γ) → Option (TopoItem γ × List (TopoItem γ))
  | [] => none
  | b :: rest =>
    if Ready all b then some (b, rest)
    else
      match extractReady all rest with
      | none => none
      | some (c, rest') => some (c, b :: rest')

/-- Modelled from the spec: the dependency-count topological sort loop;
repeatedly emits the earliest-inserted ready item, failing (`none`) when no
pending item is ready (a contradictory constraint set). -/
def sortLoop : Nat → List (TopoItem γ) → Option (List (TopoItem γ))
  | _, [] => some []
  | 0, _ :: _ => none
  | fuel + 1, pending =>
    match extractReady pending pending with
    | none => none
    | some (b, rest) => (sortLoop fuel rest).map (b :: ·)

/-- Modelled from the spec: the full stable constraint-satisfying sort of the
Topological Sequencer. -/
def topoSort (items : List (TopoItem γ)) : Option (List (TopoItem γ)) :=
  sortLoop items.length items

/-- Modelled from the spec: the constraint graph owned by the Topological
Sequencer; items are kept in insertion order. -/
structure TopoGraph (γ : Type) where
  items : List (TopoItem γ)
deriving Repr, DecidableEq

/-- The empty constraint graph (`new Topo()`). -/
def TopoGraph.empty : TopoGraph γ := ⟨[]⟩

/-- Modelled from the spec: `graph.add(node, {group, before, after})` — append
an item whose sequence number is the current item count, then re-run the sort;
a contradictory constraint set makes the add fail (the sequencer raises). -/
def TopoGraph.add (g : TopoGraph γ) (nd : γ) (grp : String) (bef aft : List String) :
    Option (TopoGraph γ) :=
  let items := g.items ++
    [{ seq := g.items.length, before := bef, after := aft, group := grp, node := nd }]
  match topoSort items with
  | none => none
  | some _ => some ⟨items⟩

/-- Modelled from the spec: `graph.nodes` — the payloads in sorted order. -/
def TopoGraph.nodes (g : TopoGraph γ) : List γ :=
  ((topoSort g.items).getD []).map (·.node)

/-- `graph._items.some(i => i.group === g)` — the existence check of
`addActionToGraph` scans the graph's items by group name. -/
def TopoGraph.groupExists (g : TopoGraph γ) (grp : String) : Bool :=
  g.items.any (fun i => i.group == grp)

/-! ### Characterization of the sequencer -/

theorem extractReady_eq_some {all l : List (TopoItem γ)} {b : TopoItem γ}
    {rest : List (TopoItem γ)} (h : extractReady all l = some (b, rest)) :
    ∃ l₁ l₂, l = l₁ ++ b :: l₂ ∧ rest = l₁ ++ l₂ ∧
      (∀ x ∈ l₁, ¬ Ready all x) ∧ Ready all b := by
  induction l generalizing rest with
  | nil => simp [extractReady] at h
  | cons a t ih =>
    by_cases hr : Ready all a
    · simp only [extractReady, if_pos hr] at h
      obtain ⟨hb, hrest⟩ := Prod.mk.injEq .. ▸ Option.some.injEq .. ▸ h
      refine ⟨[], t, ?_, ?_, ?_, ?_⟩ <;> simp_all
    · simp only [extractReady, if_neg hr] at h
      cases hx : extractReady all t with
      | none => rw [hx] at h; exact absurd h (by simp)
      | some p =>
        obtain ⟨c, rest'⟩ := p
        rw [hx] at h
        simp only [Option.some.injEq, Prod.mk.injEq] at h
        obtain ⟨hb, hrest⟩ := h
        subst hb
        obtain ⟨l₁, l₂, ht, hr', hnr, hready⟩ := ih hx
        refine ⟨a :: l₁, l₂, ?_, ?_, ?_, hready⟩
        · simp [ht]
        · simp [← hrest, hr']
        · intro x hxmem
          rcases List.mem_cons.mp hxmem with h1 | h2
          · subst h1; exact hr
          · exact hnr x h2

theorem extractReady_perm {all l : List (TopoItem γ)} {b : TopoItem γ}
    {rest : List (TopoItem γ)} (h : extractReady all l = some (b, rest)) :
    l.Perm (b :: rest) := by
  obtain ⟨l₁, l₂, hl, hr, -, -⟩ := extractReady_eq_some h
  subst hl; subst hr
  exact List.perm_middle

theorem sortLoop_perm {n : Nat} {pending sorted : List (TopoItem γ)}
    (h : sortLoop n pending = some sorted) : sorted.Perm pending := by
  induction n generalizing pending sorted with
  | zero =>
    cases pending with
    | nil => simp [sortLoop] at h; simp [← h]
    | cons a t => simp [sortLoop] at h
  | succ n ih =>
    cases pending with
    | nil => simp [sortLoop] at h; simp [← h]
    | cons a t =>
      simp only [sortLoop] at h
      cases hx : extractReady (a :: t) (a :: t) with
      | none => rw [hx] at h; simp at h
      | some p =>
        obtain ⟨b, rest⟩ := p
        simp only [hx] at h
        cases hs : sortLoop n rest with
        | none => exact Option.noConfusion (hs ▸ h)
        | some s' =>
          rw [hs] at h
          simp only [Option.map_some', Option.some.injEq] at h
          subst h
          exact ((ih hs).cons b).trans (extractReady_perm hx).symm

theorem sortLoop_mem {n : Nat} {pending sorted : List (TopoItem γ)}
    (h : sortLoop n pending = some sorted) {x : TopoItem γ} (hx : x ∈ sorted) :
    x ∈ pending :=
  (sortLoop_perm h).mem_iff.mp hx

/-- Constraint satisfaction of the sort output: an item at a later (or equal)
position never needs to precede an item at an earlier position. -/
theorem sortLoop_no_back_constraint {n : Nat} {pending sorted : List (TopoItem γ)}
    (h : sortLoop n pending = some sorted) :
    ∀ p q (hp : p < sorted.length) (hq : q < sorted.length), q ≤ p →
      ¬ MustPrecede (sorted.get ⟨p, hp⟩) (sorted.get ⟨q, hq⟩) := by
  induction n generalizing pending sorted with
  | zero =>
    cases pending with
    | nil =>
      simp [sortLoop] at h
      subst h; intro p q hp; simp at hp
    | cons a t => simp [sortLoop] at h
  | succ n ih =>
    cases pending with
    | nil =>
      simp [sortLoop] at h
      subst h; intro p q hp; simp at hp
    | cons a t =>
      simp only [sortLoop] at h
      cases hx : extractReady (a :: t) (a :: t) with
      | none => rw [hx] at h; simp at h
      | some pr =>
        obtain ⟨b, rest⟩ := pr
        simp only [hx] at h
        cases hs : sortLoop n rest with
        | none => exact Option.noConfusion (hs ▸ h)
        | some s' =>
          rw [hs] at h
          simp only [Option.map_some', Option.some.injEq] at h
          subst h
          obtain ⟨-, -, -, -, -, hready⟩ := extractReady_eq_some hx
          intro p q hp hq hle
          cases q with
          | zero =>
            have hmem : (b :: s').get ⟨p, hp⟩ ∈ a :: t := by
              have h1 : (b :: s').get ⟨p, hp⟩ ∈ b :: s' := List.get_mem _ _ _
              have h2 : (b :: s').Perm (a :: t) :=
                ((sortLoop_perm hs).cons b).trans (extractReady_perm hx).symm
              exact h2.mem_iff.mp h1
            exact hready _ hmem
          | succ q' =>
            cases p with
            | zero => omega
            | succ p' =>
              simp only [List.get_cons_succ]
              exact ih hs p' q' (by simpa using hp) (by simpa using hq) (by omega)

/-- Stability of the sort: whenever two emitted items appear out of insertion
order (`seq` order), some item positioned between them (inclusive of the
earlier position) is constrained to precede the later one — the earlier item
was still blocked when the later-inserted one was emitted. -/
theorem sortLoop_stable {n : Nat} {pending sorted : List (TopoItem γ)}
    (hpw : pending.Pairwise (fun a b => a.seq < b.seq))
    (h : sortLoop n pending = some sorted) :
    ∀ p q (hp : p < sorted.length) (hq : q < sorted.length), p < q →
      (sorted.get ⟨q, hq⟩).seq < (sorted.get ⟨p, hp⟩).seq →
      ∃ r, ∃ hr : r < sorted.length, p ≤ r ∧ r < q ∧
        MustPrecede (sorted.get ⟨r, hr⟩) (sorted.get ⟨q, hq⟩) := by
  induction n generalizing pending sorted with
  | zero =>
    cases pending with
    | nil => simp [sortLoop] at h; subst h; intro p q hp; simp at hp
    | cons a t => simp [sortLoop] at h
  | succ n ih =>
    cases pending with
    | nil => simp [sortLoop] at h; subst h; intro p q hp; simp at hp
    | cons a t =>
      simp only [sortLoop] at h
      cases hx : extractReady (a :: t) (a :: t) with
      | none => rw [hx] at h; simp at h
      | some pr =>
        obtain ⟨b, rest⟩ := pr
        simp only [hx] at h
        cases hs : sortLoop n rest with
        | none => exact Option.noConfusion (hs ▸ h)
        | some s' =>
          rw [hs] at h
          simp only [Option.map_some', Option.some.injEq] at h
          subst h
          obtain ⟨l₁, l₂, hpend, hrest, hnotready, hready⟩ := extractReady_eq_some hx
          have htop : sortLoop (n + 1) (a :: t) = some (b :: s') := by
            simp [sortLoop, hx, hs]
          have hrestpw : rest.Pairwise (fun x y => x.seq < y.seq) := by
            have hsub : rest.Sublist (a :: t) := by
              rw [hrest, hpend]
              exact (List.sublist_cons_self b l₂).append_left l₁
            exact hpw.sublist hsub
          intro p q hp hq hpq hseq
          cases q with
          | zero => omega
          | succ q' =>
            cases p with
            | zero =>
              -- the item emitted first was inserted later: the later-inserted
              -- item at position q was not ready when b was extracted
              set y := (b :: s').get ⟨q' + 1, hq⟩ with hy
              have hys : y ∈ s' := by
                have : y = s'.get ⟨q', by simpa using hq⟩ := by simp [hy]
                rw [this]; exact List.get_mem _ _ _
              have hyrest : y ∈ rest := (sortLoop_perm hs).mem_iff.mp hys
              have hyl₁ : y ∈ l₁ := by
                rw [hrest] at hyrest
                rcases List.mem_append.mp hyrest with h1 | h2
                · exact h1
                · exfalso
                  have hb2 : (b :: l₂).Pairwise (fun x y => x.seq < y.seq) := by
                    refine hpw.sublist ?_
                    rw [hpend]
                    exact List.sublist_append_right l₁ (b :: l₂)
                  have : b.seq < y.seq := List.rel_of_pairwise_cons hb2 h2
                  simp only [List.get] at hseq
                  omega
              have hnready : ¬ Ready (a :: t) y := hnotready y hyl₁
              have hstep : ∃ w ∈ a :: t, MustPrecede w y := by
                by_contra hcon
                push_neg at hcon
                exact hnready (fun w hw => hcon w hw)
              obtain ⟨w, hwmem, hwM⟩ := hstep
              have hperm : (b :: s').Perm (a :: t) :=
                ((sortLoop_perm hs).cons b).trans (extractReady_perm hx).symm
              have hwsorted : w ∈ b :: s' := hperm.mem_iff.mpr hwmem
              obtain ⟨⟨r, hr⟩, hrw⟩ := List.mem_iff_get.mp hwsorted
              refine ⟨r, hr, Nat.zero_le r, ?_, by rw [hrw]; exact hwM⟩
              -- r < q'+1 from the no-back-constraint property
              by_contra hge
              have hqr : q' + 1 ≤ r := by omega
              exact sortLoop_no_back_constraint htop r (q' + 1) hr hq hqr (hrw ▸ hwM)
            | succ p' =>
              have hp' : p' < s'.length := by simpa using hp
              have hq' : q' < s'.length := by simpa using hq
              obtain ⟨r', hr', hle, hlt, hM⟩ :=
                ih hrestpw hs p' q' hp' hq' (by omega) (by simpa using hseq)
              refine ⟨r' + 1, by simpa using hr', by omega, by omega, ?_⟩
              simpa using hM

/-- One edge of the constraint graph: both endpoints are graph items and the
first is constrained to precede the second. -/
def ConstraintStep (items : List (TopoItem γ)) (u v : TopoItem γ) : Prop :=
  u ∈ items ∧ v ∈ items ∧ MustPrecede u v

/-- In a successful sort, a chain of constraints forces strictly increasing
positions. -/
theorem topoSort_transGen_lt {items sorted : List (TopoItem γ)}
    (h : topoSort items = some sorted) {u v : TopoItem γ}
    (hT : Relation.TransGen (ConstraintStep items) u v) :
    ∀ i j (hi : i < sorted.length) (hj : j < sorted.length),
      sorted.get ⟨i, hi⟩ = u → sorted.get ⟨j, hj⟩ = v → i < j := by
  induction hT with
  | single hstep =>
    intro i j hi hj hu hv
    by_contra hge
    exact sortLoop_no_back_constraint h i j hi hj (by omega)
      (by rw [hu, hv]; exact hstep.2.2)
  | tail hT hstep ih =>
    intro i j hi hj hu hv
    have hwmem : _ ∈ sorted := (sortLoop_perm h).mem_iff.mpr hstep.1
    obtain ⟨⟨k, hk⟩, hkw⟩ := List.mem_iff_get.mp hwmem
    have h1 := ih i k hi hk hu hkw
    have h2 : k < j := by
      by_contra hge
      exact sortLoop_no_back_constraint h k j hk hj (by omega)
        (by rw [hkw, hv]; exact hstep.2.2)
    omega

/-- Modelled from the spec: a contradictory constraint set (a cycle among the
before/after edges) makes the Topological Sequencer fail. -/
theorem topoSort_cycle_none {items : List (TopoItem γ)} {x : TopoItem γ}
    (hc : Relation.TransGen (ConstraintStep items) x x) : topoSort items = none := by
  cases h : topoSort items with
  | none => rfl
  | some sorted =>
    exfalso
    have hxitems : x ∈ items := by
      cases hc with
      | single hstep => exact hstep.1
      | tail _ hstep => exact hstep.2.1
    have hxs : x ∈ sorted := (sortLoop_perm h).mem_iff.mpr hxitems
    obtain ⟨⟨i, hi⟩, hix⟩ := List.mem_iff_get.mp hxs
    exact absurd (topoSort_transGen_lt h hc i i hi hi hix hix) (by omega)

/-- An item with no incoming constraint edge is not reachable by any chain of
constraints. -/
theorem not_transGen_of_no_in_edge {items : List (TopoItem γ)} {b : TopoItem γ}
    (hiso : ∀ t ∈ items, ¬ MustPrecede t b) (a : TopoItem γ) :
    ¬ Relation.TransGen (ConstraintStep items) a b := by
  intro hT
  cases hT with
  | single hstep => exact hiso _ hstep.1 hstep.2.2
  | tail _ hstep => exact hiso _ hstep.1 hstep.2.2

/-- An item with no outgoing constraint edge reaches nothing by any chain of
constraints. -/
theorem not_transGen_of_no_out_edge {items : List (TopoItem γ)} {b : TopoItem γ}
    (hiso : ∀ t ∈ items, ¬ MustPrecede b t) (a : TopoItem γ) :
    ¬ Relation.TransGen (ConstraintStep items) b a := by
  intro hT
  induction hT with
  | single hstep => exact hiso _ hstep.2.1 hstep.2.2
  | tail hT hstep ih => exact ih

/-! ### Metadata model and the Dependency Extractor (`normalizeKeys`,
`populateActionMetadata`) -/

/-- Embeds `k.split('#')[0]`: the prefix of a binding key before its first
`#` qualifier character. -/
def keyBase (k : String) : String :=
  String.mk (k.data.takeWhile (fun c => c != '#'))

/-- Embeds `Array.from(new Set(keys))`: deduplication keeping the first
occurrence of each key, in encounter order (JavaScript `Set` insertion
semantics, carrying the set of already-seen keys). -/
def dedupAux (seen : List String) : List String → List String
  | [] => []
  | k :: ks => if k ∈ seen then dedupAux seen ks else k :: dedupAux (k :: seen) ks

/-- `normalizeKeys(keys?)`: default an absent array to `[]`, strip the `#`
qualifier suffix from every key, deduplicate preserving first-seen order. -/
def normalizeKeys (keys : Option (List String)) : List String :=
  dedupAux [] ((keys.getD []).map keyBase)

/-- The `fulfills`/`dependsOn` portion of an `ActionMetadata` record, the part
read and written by `populateActionMetadata`. -/
structure MetaKeys where
  fulfills : List String
  dependsOn : List String
deriving Repr, DecidableEq

/-- One entry of the injection-description collaborator's answer: a binding
key plus whether the injection is an `@inject.setter` (deferred write). -/
structure Injection where
  bindingKey : String
  isSetter : Bool
deriving Repr, DecidableEq

/-- `populateActionMetadata(actionMetadata, injections)`: non-setter
injections derive `dependsOn`, setter injections derive `fulfills`; declared
entries are concatenated after the derived ones and each list is normalized. -/
def populateActionMetadata (md : MetaKeys) (injections : List Injection) : MetaKeys :=
  let dependsOn := (injections.filter (fun p => !p.isSetter)).map (fun p => p.bindingKey)
    ++ md.dependsOn
  let fulfills := (injections.filter (fun p => p.isSetter)).map (fun p => p.bindingKey)
    ++ md.fulfills
  { dependsOn := normalizeKeys (some dependsOn), fulfills := normalizeKeys (some fulfills) }

/-! ### The metadata registry heap

JavaScript metadata records are shared mutable objects: `inspectAction`
returns a shallow copy of the class record whose `methods` map still holds
the registry's method record objects, and `sortActions` pushes onto those
records in place.  Method records therefore live in an explicit heap,
addressed by index, and the registry and all descriptors reference them by
index. -/

/-- An `ActionMethod` record (`method`, `bindsReturnValueAs`, `actionClass`
back-reference by descriptor index, plus the `ActionMetadata` base fields). -/
structure MethodRec where
  group : String
  fulfills : List String
  dependsOn : List String
  method : String
  bindsReturnValueAs : Option String
  actionClass : Option Nat
deriving Repr, DecidableEq, Inhabited

/-- The class-level `ActionMetadata` record: group plus fulfills/dependsOn and
the class (its `target.name`). -/
structure ClassMeta where
  className : String
  group : String
  fulfills : List String
  dependsOn : List String
deriving Repr, DecidableEq

/-- The fresh `ActionClass` object built by one `inspectAction` call: a copy
of the class metadata plus a fresh methods map referencing the shared method
records. -/
structure ClassDescriptor where
  meta : ClassMeta
  methods : List (String × Nat)
deriving Repr, DecidableEq

/-- The mutable object heap: the registry's method records and the
`ActionClass` descriptor objects allocated by `inspectAction` calls. -/
structure Heap where
  methodRecs : List MethodRec
  descriptors : List ClassDescriptor
deriving Repr, DecidableEq

/-- What the metadata registry knows about one decorated class: its class
record and its aggregated method map (name, heap index of the record), in
registration order. -/
structure ActionClassReg where
  meta : ClassMeta
  methods : List (String × Nat)
deriving Repr, DecidableEq

/-- In-place update of the heap cell at an index (out-of-range indices leave
the list unchanged). -/
def modifyIdx {α : Type} (f : α → α) : Nat → List α → List α
  | _, [] => []
  | 0, r :: rs => f r :: rs
  | n + 1, r :: rs => r :: modifyIdx f n rs

/-- `inspectAction(cls)`: allocate a fresh `ActionClass` descriptor (shallow
copy of the class record plus a fresh copy of the methods map), then stamp
every referenced method record's `actionClass` back-reference to the fresh
descriptor — an in-place write to the shared records. -/
def inspectAction (reg : ActionClassReg) (h : Heap) : Nat × Heap :=
  let did := h.descriptors.length
  let recs := reg.methods.foldl
    (fun recs nm => modifyIdx (fun r => { r with actionClass := some did }) nm.2 recs)
    h.methodRecs
  (did, { methodRecs := recs, descriptors := h.descriptors ++ [⟨reg.meta, reg.methods⟩] })

/-! ### The Graph Builder (`addActionToGraph`, `sortActionClasses`,
`sortActions`) -/

/-- A graph node payload: a plain string key, a class metadata record
(`sortActionClasses` adds the registry's class record), a fresh class
descriptor (`sortActions` adds the object returned by `inspectAction`), or a
method record (by heap index). -/
inductive GNode where
  | key (k : String)
  | clsMeta (m : ClassMeta)
  | cls (did : Nat)
  | mth (i : Nat)
deriving Repr, DecidableEq

/-- One step of `addActionToGraph`'s key loop:
`if (!exists(k)) graph.add(k, {group: k})`, short-circuiting after a raise. -/
def addKeyStep : Option (TopoGraph GNode) → String → Option (TopoGraph GNode)
  | none, _ => none
  | some g, k => if g.groupExists k then some g else g.add (GNode.key k) k [] []

/-- `addActionToGraph(graph, meta)`: for every key of `meta.fulfills` then of
`meta.dependsOn`, add a key node unless an item with that group already
exists; finally add the action's own node with `before = fulfills` and
`after = dependsOn`.  Any failing sequencer add aborts (the raise
propagates). -/
def addActionToGraph (g : TopoGraph GNode) (grp : String)
    (fulfills dependsOn : List String) (payload : GNode) : Option (TopoGraph GNode) :=
  match (fulfills ++ dependsOn).foldl addKeyStep (some g) with
  | none => none
  | some g' => g'.add payload grp fulfills dependsOn

/-- `ActionGraph`: the sorted node list (`actions`) plus the underlying
constraint graph. -/
structure ActionGraph where
  graph : TopoGraph GNode
  actions : List GNode
deriving Repr, DecidableEq

/-- `graph.nodes.filter(n => typeof n === 'object')`: every payload except a
plain string key. -/
def isObjectNode : GNode → Bool
  | GNode.key _ => false
  | _ => true

/-- `sortActionClasses(actionClasses, removeKeys)`: add one node per class
from its stored class record, then package the graph, optionally filtering
key nodes out of the sorted result. -/
def sortActionClasses (classes : List ActionClassReg) (removeKeys : Bool) :
    Option ActionGraph :=
  let step := fun (og : Option (TopoGraph GNode)) (c : ActionClassReg) =>
    match og with
    | none => none
    | some g => addActionToGraph g c.meta.group c.meta.fulfills c.meta.dependsOn
        (GNode.clsMeta c.meta)
  match classes.foldl step (some TopoGraph.empty) with
  | none => none
  | some g =>
    if removeKeys then some ⟨g, g.nodes.filter isObjectNode⟩ else some ⟨g, g.nodes⟩

/-- `method.dependsOn.push(meta.group)`: the in-place append `sortActions`
performs on a shared method record when classes are included. -/
def pushDependsOn (h : Heap) (i : Nat) (grp : String) : Heap :=
  { h with methodRecs :=
      modifyIdx (fun r => { r with dependsOn := r.dependsOn ++ [grp] }) i h.methodRecs }

/-- The inner loop of `sortActions` over one class's methods: optionally push
the class group onto the shared record's `dependsOn`, then add the method's
node; a failing add stops the loop (the raise propagates). -/
def sortMethodsLoop (ic : Bool) (clsGroup : String) :
    List (String × Nat) → TopoGraph GNode → Heap → Option (TopoGraph GNode) × Heap
  | [], g, h => (some g, h)
  | (_, i) :: ms, g, h =>
    let h' := if ic then pushDependsOn h i clsGroup else h
    let r := h'.methodRecs.getD i default
    match addActionToGraph g r.group r.fulfills r.dependsOn (GNode.mth i) with
    | none => (none, h')
    | some g' => sortMethodsLoop ic clsGroup ms g' h'

/-- The outer loop of `sortActions` over the classes: inspect the class
(allocating a descriptor and stamping back-references), optionally add the
class node, then process its methods. -/
def sortClassesLoop (ic : Bool) :
    List ActionClassReg → TopoGraph GNode → Heap → Option (TopoGraph GNode) × Heap
  | [], g, h => (some g, h)
  | c :: cs, g, h =>
    let dh := inspectAction c h
    match (if ic then
        addActionToGraph g c.meta.group c.meta.fulfills c.meta.dependsOn (GNode.cls dh.1)
      else some g) with
    | none => (none, dh.2)
    | some g₁ =>
      match sortMethodsLoop ic c.meta.group c.methods g₁ dh.2 with
      | (none, h₂) => (none, h₂)
      | (some g₂, h₂) => sortClassesLoop ic cs g₂ h₂

/-- `sortActions(actionClasses, includeClasses, removeKeys)`. -/
def sortActions (classes : List ActionClassReg) (includeClasses removeKeys : Bool)
    (h : Heap) : Option ActionGraph × Heap :=
  match sortClassesLoop includeClasses classes TopoGraph.empty h with
  | (none, h') => (none, h')
  | (some g, h') =>
    if removeKeys then (some ⟨g, g.nodes.filter isObjectNode⟩, h')
    else (some ⟨g, g.nodes⟩, h')

/-! ### The Sequence Executor (`Sequence`) -/

/-- The execution session: the action classes, the shared metadata heap, and
the lazily built, cached `ActionGraph`. -/
structure Sequence where
  classes : List ActionClassReg
  heap : Heap
  cached : Option ActionGraph
deriving Repr, DecidableEq

/-- `Sequence.buildGraph()`: build the graph once via
`sortActions(classes, true, false)` and cache it; a failing sort propagates
and caches nothing. -/
def Sequence.buildGraph (s : Sequence) : Option ActionGraph × Sequence :=
  match s.cached with
  | some g => (some g, s)
  | none =>
    match sortActions s.classes true false s.heap with
    | (none, h') => (none, { s with heap := h' })
    | (some g, h') => (some g, { s with heap := h', cached := some g })

variable {V E I : Type}

/-- `ctx.bind(key).to(value)`: publish a value into the binding store (the
newest binding wins lookups). -/
def bindStore (st : List (String × V)) (k : String) (v : V) : List (String × V) :=
  (k, v) :: st

/-- `actions.filter(a => !!a.method)`: a payload passes when it is a method
record whose method name is truthy. -/
def isMethodNode (h : Heap) : GNode → Bool
  | GNode.mth i => (h.methodRecs.getD i default).method != ""
  | _ => false

/-- The body of `Sequence.run()`'s loop: for each method node, resolve the
owning instance from the store (`ctx.get('actions.' + ...)`, modelled by the
`resolve` collaborator), invoke the method (`invokeMethod`, modelled by
`invokeM`, returning `none` for `undefined`), and publish a defined result
under a truthy `bindsReturnValueAs` key; an error from either collaborator
stops the loop and propagates, keeping the store as already written. -/
def runLoop (resolve : MethodRec → List (String × V) → Except E I)
    (invokeM : I → String → List (String × V) → Except E (Option V)) (h : Heap) :
    List GNode → List (String × V) → Option E × List (String × V)
  | [], st => (none, st)
  | GNode.mth i :: ns, st =>
    let m := h.methodRecs.getD i default
    match resolve m st with
    | Except.error e => (some e, st)
    | Except.ok inst =>
      match invokeM inst m.method st with
      | Except.error e => (some e, st)
      | Except.ok r =>
        let st' := match r, m.bindsReturnValueAs with
          | some v, some k => if k ≠ "" then bindStore st k v else st
          | _, _ => st
        runLoop resolve invokeM h ns st'
  | _ :: ns, st => runLoop resolve invokeM h ns st

/-- `Sequence.run()`: build (or fetch) the cached graph, filter its sorted
actions to the method-bearing nodes, and execute them strictly sequentially.
`configError` stands for the error a failing sort raises. -/
def Sequence.run (configError : E) (resolve : MethodRec → List (String × V) → Except E I)
    (invokeM : I → String → List (String × V) → Except E (Option V))
    (s : Sequence) (st : List (String × V)) :
    Option E × List (String × V) × Sequence :=
  match Sequence.buildGraph s with
  | (none, s') => (some configError, st, s')
  | (some g, s') =>
    let r := runLoop resolve invokeM s'.heap (g.actions.filter (isMethodNode s'.heap)) st
    (r.1, r.2, s')

/-! ### Properties of the Dependency Extractor -/

theorem keyBase_no_hash (k : String) : ∀ c ∈ (keyBase k).data, c ≠ '#' := by
  intro c hc
  have := List.mem_takeWhile_imp hc
  simpa using this

theorem keyBase_of_head_hash {k : String} (h : k.data.head? = some '#') :
    keyBase k = "" := by
  unfold keyBase
  cases hd : k.data with
  | nil => rw [hd] at h; simp at h
  | cons c t =>
    rw [hd] at h
    simp only [List.head?_cons, Option.some.injEq] at h
    subst h
    rfl

theorem mem_dedupAux {x : String} :
    ∀ {l seen : List String}, x ∈ dedupAux seen l ↔ x ∈ l ∧ x ∉ seen := by
  intro l
  induction l with
  | nil => intro seen; simp [dedupAux]
  | cons k ks ih =>
    intro seen
    by_cases hk : k ∈ seen
    · rw [dedupAux, if_pos hk, ih]
      constructor
      · rintro ⟨h1, h2⟩; exact ⟨List.mem_cons_of_mem k h1, h2⟩
      · rintro ⟨h1, h2⟩
        rcases List.mem_cons.mp h1 with rfl | h1
        · exact absurd hk h2
        · exact ⟨h1, h2⟩
    · rw [dedupAux, if_neg hk]
      constructor
      · intro hmem
        rcases List.mem_cons.mp hmem with rfl | hmem
        · exact ⟨List.mem_cons_self x ks, hk⟩
        · obtain ⟨h1, h2⟩ := ih.mp hmem
          exact ⟨List.mem_cons_of_mem k h1, fun hx => h2 (List.mem_cons_of_mem k hx)⟩
      · rintro ⟨h1, h2⟩
        rcases List.mem_cons.mp h1 with rfl | h1
        · exact List.mem_cons_self x _
        · by_cases hxk : x = k
          · subst hxk; exact List.mem_cons_self x _
          · refine List.mem_cons_of_mem k (ih.mpr ⟨h1, ?_⟩)
            intro hx
            rcases List.mem_cons.mp hx with he | hx
            · exact hxk he
            · exact h2 hx

theorem dedupAux_nodup : ∀ (l seen : List String), (dedupAux seen l).Nodup := by
  intro l
  induction l with
  | nil => intro seen; simp [dedupAux]
  | cons k ks ih =>
    intro seen
    by_cases hk : k ∈ seen
    · simpa [dedupAux, if_pos hk] using ih seen
    · simp only [dedupAux, if_neg hk]
      refine List.nodup_cons.mpr ⟨?_, ih (k :: seen)⟩
      intro hmem
      exact (mem_dedupAux.mp hmem).2 (List.mem_cons_self k seen)

theorem dedupAux_sublist : ∀ (l seen : List String), (dedupAux seen l).Sublist l := by
  intro l
  induction l with
  | nil => intro seen; simp [dedupAux]
  | cons k ks ih =>
    intro seen
    by_cases hk : k ∈ seen
    · simpa [dedupAux, if_pos hk] using (ih seen).trans (List.sublist_cons_self k ks)
    · simpa [dedupAux, if_neg hk] using (ih (k :: seen)).cons₂ k

theorem mem_normalizeKeys {x : String} {ks : List String} :
    x ∈ normalizeKeys (some ks) ↔ ∃ k ∈ ks, keyBase k = x := by
  unfold normalizeKeys
  rw [mem_dedupAux]
  simp

/-- C4. For every action metadata record and declared input list: plain-read
inputs contribute their key to `dependsOn`, deferred-write (setter) inputs to
`fulfills`; explicit entries follow the derived ones; the combined lists are
normalized by stripping the `#` qualifier and deduplicating in first-seen
order; the result lists are duplicate-free and qualifier-free; an absent key
list normalizes to the empty list (the function is total — no error). -/
theorem populateActionMetadata_spec (md : MetaKeys) (injections : List Injection) :
    ((populateActionMetadata md injections).dependsOn = dedupAux []
        ((((injections.filter (fun p => !p.isSetter)).map (fun p => p.bindingKey))
          ++ md.dependsOn).map keyBase))
    ∧ ((populateActionMetadata md injections).fulfills = dedupAux []
        ((((injections.filter (fun p => p.isSetter)).map (fun p => p.bindingKey))
          ++ md.fulfills).map keyBase))
    ∧ (∀ p ∈ injections, p.isSetter = false →
        keyBase p.bindingKey ∈ (populateActionMetadata md injections).dependsOn)
    ∧ (∀ p ∈ injections, p.isSetter = true →
        keyBase p.bindingKey ∈ (populateActionMetadata md injections).fulfills)
    ∧ (∀ k ∈ md.dependsOn, keyBase k ∈ (populateActionMetadata md injections).dependsOn)
    ∧ (∀ k ∈ md.fulfills, keyBase k ∈ (populateActionMetadata md injections).fulfills)
    ∧ (populateActionMetadata md injections).dependsOn.Nodup
    ∧ (populateActionMetadata md injections).fulfills.Nodup
    ∧ (∀ k ∈ (populateActionMetadata md injections).dependsOn, ∀ c ∈ k.data, c ≠ '#')
    ∧ (∀ k ∈ (populateActionMetadata md injections).fulfills, ∀ c ∈ k.data, c ≠ '#')
    ∧ normalizeKeys none = [] := by
  refine ⟨rfl, rfl, ?_, ?_, ?_, ?_, ?_, ?_, ?_, ?_, rfl⟩
  · intro p hp hns
    exact mem_normalizeKeys.mpr ⟨p.bindingKey, by
      simp only [List.mem_append, List.mem_map]
      exact Or.inl ⟨p, List.mem_filter.mpr ⟨hp, by simp [hns]⟩, rfl⟩, rfl⟩
  · intro p hp hs
    exact mem_normalizeKeys.mpr ⟨p.bindingKey, by
      simp only [List.mem_append, List.mem_map]
      exact Or.inl ⟨p, List.mem_filter.mpr ⟨hp, by simp [hs]⟩, rfl⟩, rfl⟩
  · intro k hk
    exact mem_normalizeKeys.mpr ⟨k, List.mem_append.mpr (Or.inr hk), rfl⟩
  · intro k hk
    exact mem_normalizeKeys.mpr ⟨k, List.mem_append.mpr (Or.inr hk), rfl⟩
  · exact dedupAux_nodup _ _
  · exact dedupAux_nodup _ _
  · intro k hk
    obtain ⟨k₀, -, hkb⟩ := mem_normalizeKeys.mp hk
    exact hkb ▸ keyBase_no_hash k₀
  · intro k hk
    obtain ⟨k₀, -, hkb⟩ := mem_normalizeKeys.mp hk
    exact hkb ▸ keyBase_no_hash k₀

/-- C4 witness: the extractor evaluated on a concrete record and input
list. -/
theorem populateActionMetadata_spec_witness :
    keyBase "a#x" ∈ (populateActionMetadata ⟨["f#1"], ["a#x"]⟩
      [⟨"a#x", false⟩, ⟨"s#2", true⟩]).dependsOn ∧
    populateActionMetadata ⟨["f#1"], ["a#x"]⟩ [⟨"a#x", false⟩, ⟨"s#2", true⟩]
      = ⟨["s", "f"], ["a"]⟩ := by
  constructor
  · exact (populateActionMetadata_spec ⟨["f#1"], ["a#x"]⟩
      [⟨"a#x", false⟩, ⟨"s#2", true⟩]).2.2.1 ⟨"a#x", false⟩ (by decide) rfl
  · decide

/-- C10. Key normalization maps a key to the substring before its first `#`;
a key whose first character is `#` normalizes to the empty string, which is
retained in the resulting `dependsOn`/`fulfills` lists, and all such
qualifier-only keys collapse into a single empty-string entry. -/
theorem normalizeKeys_qualifier_only :
    (∀ k : String, (keyBase k).data = k.data.takeWhile (fun c => c != '#'))
    ∧ (∀ (md : MetaKeys) (injections : List Injection) (k : String),
        k ∈ md.dependsOn → k.data.head? = some '#' →
        "" ∈ (populateActionMetadata md injections).dependsOn)
    ∧ (∀ (md : MetaKeys) (injections : List Injection) (k : String),
        k ∈ md.fulfills → k.data.head? = some '#' →
        "" ∈ (populateActionMetadata md injections).fulfills)
    ∧ (∀ (md : MetaKeys) (injections : List Injection),
        (populateActionMetadata md injections).dependsOn.count "" ≤ 1 ∧
        (populateActionMetadata md injections).fulfills.count "" ≤ 1)
    ∧ normalizeKeys (some ["#a", "#b", "x#y", "x#z"]) = ["", "x"] := by
  refine ⟨fun k => rfl, ?_, ?_, ?_, by decide⟩
  · intro md injections k hk hh
    exact mem_normalizeKeys.mpr
      ⟨k, List.mem_append.mpr (Or.inr hk), keyBase_of_head_hash hh⟩
  · intro md injections k hk hh
    exact mem_normalizeKeys.mpr
      ⟨k, List.mem_append.mpr (Or.inr hk), keyBase_of_head_hash hh⟩
  · intro md injections
    exact ⟨List.nodup_iff_count_le_one.mp (dedupAux_nodup _ _) "",
      List.nodup_iff_count_le_one.mp (dedupAux_nodup _ _) ""⟩

/-- C10 witness: a qualifier-only key in a concrete record survives as the
empty-string key. -/
theorem normalizeKeys_qualifier_only_witness :
    "" ∈ (populateActionMetadata ⟨[], ["#ctx"]⟩ []).dependsOn ∧
    (populateActionMetadata ⟨[], ["#ctx"]⟩ []).dependsOn = [""] := by
  constructor
  · exact normalizeKeys_qualifier_only.2.1 ⟨[], ["#ctx"]⟩ [] "#ctx" (by decide) (by decide)
  · decide

/-! ### Properties of `inspectAction` -/

theorem modifyIdx_length {α : Type} (f : α → α) :
    ∀ (n : Nat) (l : List α), (modifyIdx f n l).length = l.length := by
  intro n l
  induction l generalizing n with
  | nil => cases n <;> rfl
  | cons a t ih => cases n with
    | zero => rfl
    | succ n => simpa [modifyIdx] using ih n

theorem modifyIdx_get?_eq {α : Type} (f : α → α) :
    ∀ (n : Nat) (l : List α), (modifyIdx f n l).get? n = (l.get? n).map f := by
  intro n l
  induction l generalizing n with
  | nil => cases n <;> rfl
  | cons a t ih => cases n with
    | zero => rfl
    | succ n => simpa [modifyIdx] using ih n

theorem modifyIdx_get?_ne {α : Type} (f : α → α) :
    ∀ (m n : Nat) (l : List α), m ≠ n → (modifyIdx f n l).get? m = l.get? m := by
  intro m n l
  induction l generalizing m n with
  | nil => intro _; cases n <;> rfl
  | cons a t ih =>
    intro hmn
    cases n with
    | zero => cases m with
      | zero => exact absurd rfl hmn
      | succ m => rfl
    | succ n => cases m with
      | zero => rfl
      | succ m => simpa [modifyIdx] using ih m n (by omega)

/-- The record-stamping fold of `inspectAction`: a referenced cell gets its
`actionClass` overwritten to the new descriptor, all other cells are
untouched. -/
theorem inspect_fold_get? (did : Nat) (ms : List (String × Nat))
    (recs : List MethodRec) (i : Nat) :
    (ms.foldl (fun recs nm =>
        modifyIdx (fun r => { r with actionClass := some did }) nm.2 recs) recs).get? i =
      if i ∈ ms.map (fun nm => nm.2) then
        (recs.get? i).map (fun r => { r with actionClass := some did })
      else recs.get? i := by
  induction ms generalizing recs with
  | nil => simp
  | cons nm ms ih =>
    rw [List.foldl_cons, ih]
    by_cases he : i = nm.2
    · subst he
      rw [if_pos (by simp : nm.2 ∈ (nm :: ms).map (fun nm => nm.2)), modifyIdx_get?_eq]
      by_cases hi : nm.2 ∈ ms.map (fun nm => nm.2)
      · rw [if_pos hi]
        cases recs.get? nm.2 <;> rfl
      · rw [if_neg hi]
    · rw [modifyIdx_get?_ne _ _ _ _ he]
      by_cases hi : i ∈ ms.map (fun nm => nm.2)
      · rw [if_pos hi, if_pos (by simp [hi])]
      · rw [if_neg hi, if_neg (by simp [he, hi])]

theorem inspectAction_fst (reg : ActionClassReg) (h : Heap) :
    (inspectAction reg h).1 = h.descriptors.length := rfl

theorem inspectAction_descriptors (reg : ActionClassReg) (h : Heap) :
    (inspectAction reg h).2.descriptors = h.descriptors ++ [⟨reg.meta, reg.methods⟩] := rfl

theorem inspectAction_methodRecs_get? (reg : ActionClassReg) (h : Heap) (i : Nat) :
    (inspectAction reg h).2.methodRecs.get? i =
      if i ∈ reg.methods.map (fun nm => nm.2) then
        (h.methodRecs.get? i).map
          (fun r => { r with actionClass := some h.descriptors.length })
      else h.methodRecs.get? i :=
  inspect_fold_get? _ _ _ _

/-- C8 amended: inspecting the same class twice allocates two distinct
`ActionClass` descriptors with equal contents; both calls' method maps
reference the same shared method records; each call stamps those shared
records' back-reference to its own fresh descriptor, so immediately after
each call the records point at that call's descriptor — and after the second
call the back-reference observable through the first call's records is the
second call's descriptor, with every other record field unchanged. -/
theorem inspectAction_twice_spec (reg : ActionClassReg) (h : Heap) :
    (inspectAction reg h).1 ≠ (inspectAction reg (inspectAction reg h).2).1
    ∧ (inspectAction reg (inspectAction reg h).2).2.descriptors.get?
        (inspectAction reg h).1 = some ⟨reg.meta, reg.methods⟩
    ∧ (inspectAction reg (inspectAction reg h).2).2.descriptors.get?
        (inspectAction reg (inspectAction reg h).2).1 = some ⟨reg.meta, reg.methods⟩
    ∧ (∀ nm ∈ reg.methods, ∀ r, h.methodRecs.get? nm.2 = some r →
        (inspectAction reg h).2.methodRecs.get? nm.2 =
          some { r with actionClass := some (inspectAction reg h).1 })
    ∧ (∀ nm ∈ reg.methods, ∀ r, h.methodRecs.get? nm.2 = some r →
        (inspectAction reg (inspectAction reg h).2).2.methodRecs.get? nm.2 =
          some { r with actionClass := some (inspectAction reg (inspectAction reg h).2).1 }) := by
  have hlen : (inspectAction reg h).2.descriptors.length = h.descriptors.length + 1 := by
    rw [inspectAction_descriptors]; simp
  refine ⟨?_, ?_, ?_, ?_, ?_⟩
  · rw [inspectAction_fst, inspectAction_fst, hlen]; omega
  · rw [inspectAction_descriptors, inspectAction_fst, inspectAction_descriptors]
    rw [List.append_assoc]
    rw [List.get?_append_right (Nat.le_refl _)]
    simp
  · rw [inspectAction_descriptors, inspectAction_fst, hlen, inspectAction_descriptors]
    rw [List.get?_append_right (by simp)]
    simp
  · intro nm hnm r hr
    have hmem : nm.2 ∈ reg.methods.map (fun nm => nm.2) := List.mem_map.mpr ⟨nm, hnm, rfl⟩
    rw [inspectAction_methodRecs_get? reg h nm.2, if_pos hmem, hr, inspectAction_fst reg h]
    rfl
  · intro nm hnm r hr
    have hmem : nm.2 ∈ reg.methods.map (fun nm => nm.2) := List.mem_map.mpr ⟨nm, hnm, rfl⟩
    rw [inspectAction_methodRecs_get? reg (inspectAction reg h).2 nm.2, if_pos hmem,
      inspectAction_methodRecs_get? reg h nm.2, if_pos hmem, hr,
      inspectAction_fst reg (inspectAction reg h).2, hlen]
    rfl

/-- C8 witness: the amended statement evaluated on a concrete one-method
class registry. -/
theorem inspectAction_twice_spec_witness :
    (inspectAction ⟨⟨"C", "class:C", [], []⟩, [("m", 0)]⟩
        (inspectAction ⟨⟨"C", "class:C", [], []⟩, [("m", 0)]⟩
          ⟨[⟨"method:C.prototype.m", [], [], "m", none, none⟩], []⟩).2).2.methodRecs.get? 0 =
      some ⟨"method:C.prototype.m", [], [], "m", none, some 1⟩ := by
  have hs := (inspectAction_twice_spec ⟨⟨"C", "class:C", [], []⟩, [("m", 0)]⟩
    ⟨[⟨"method:C.prototype.m", [], [], "m", none, none⟩], []⟩).2.2.2.2
    ("m", 0) (by decide) ⟨"method:C.prototype.m", [], [], "m", none, none⟩ (by decide)
  exact hs.trans (by decide)

/-- C8 counterexample: after a second inspection of the same class, the
shared method record referenced by the first call's methods map carries the
second call's back-reference — the first call's records do observe the later
inspection, refuting the claimed isolation. -/
theorem inspectAction_counterexample :
    ((inspectAction ⟨⟨"C", "class:C", [], []⟩, [("m", 0)]⟩
        (inspectAction ⟨⟨"C", "class:C", [], []⟩, [("m", 0)]⟩
          ⟨[⟨"method:C.prototype.m", [], [], "m", none, none⟩], []⟩).2).2.methodRecs.getD 0
      default).actionClass =
      some (inspectAction ⟨⟨"C", "class:C", [], []⟩, [("m", 0)]⟩
        (inspectAction ⟨⟨"C", "class:C", [], []⟩, [("m", 0)]⟩
          ⟨[⟨"method:C.prototype.m", [], [], "m", none, none⟩], []⟩).2).1
    ∧ ((inspectAction ⟨⟨"C", "class:C", [], []⟩, [("m", 0)]⟩
        (inspectAction ⟨⟨"C", "class:C", [], []⟩, [("m", 0)]⟩
          ⟨[⟨"method:C.prototype.m", [], [], "m", none, none⟩], []⟩).2).2.methodRecs.getD 0
      default).actionClass ≠
      some (inspectAction ⟨⟨"C", "class:C", [], []⟩, [("m", 0)]⟩
        ⟨[⟨"method:C.prototype.m", [], [], "m", none, none⟩], []⟩).1 := by
  decide

/-! ### Heap frame properties of the Graph Builder -/

/-- The ways the Graph Builder can change the metadata heap: descriptors are
only appended, and a stored method record can change only by appending
entries to its `dependsOn` and overwriting its `actionClass` back-reference;
`group`, `fulfills`, `method` and `bindsReturnValueAs` are preserved. -/
def HeapEvolves (h h' : Heap) : Prop :=
  (∃ ds, h'.descriptors = h.descriptors ++ ds) ∧
  ∀ i r, h.methodRecs.get? i = some r →
    ∃ (suffix : List String) (ac : Option Nat),
      h'.methodRecs.get? i =
        some { r with dependsOn := r.dependsOn ++ suffix, actionClass := ac }

theorem HeapEvolves.refl (h : Heap) : HeapEvolves h h := by
  refine ⟨⟨[], by simp⟩, fun i r hr => ⟨[], r.actionClass, ?_⟩⟩
  rw [hr]
  simp

theorem HeapEvolves.trans {h₁ h₂ h₃ : Heap}
    (a : HeapEvolves h₁ h₂) (b : HeapEvolves h₂ h₃) : HeapEvolves h₁ h₃ := by
  obtain ⟨⟨ds₁, hd₁⟩, hm₁⟩ := a
  obtain ⟨⟨ds₂, hd₂⟩, hm₂⟩ := b
  refine ⟨⟨ds₁ ++ ds₂, by rw [hd₂, hd₁, List.append_assoc]⟩, fun i r hr => ?_⟩
  obtain ⟨s₁, ac₁, hr₂⟩ := hm₁ i r hr
  obtain ⟨s₂, ac₂, hr₃⟩ := hm₂ i _ hr₂
  exact ⟨s₁ ++ s₂, ac₂, by rw [hr₃]; simp⟩

theorem inspectAction_heapEvolves (reg : ActionClassReg) (h : Heap) :
    HeapEvolves h (inspectAction reg h).2 := by
  refine ⟨⟨[⟨reg.meta, reg.methods⟩], inspectAction_descriptors reg h⟩, fun i r hr => ?_⟩
  rw [inspectAction_methodRecs_get?]
  by_cases hi : i ∈ reg.methods.map (fun nm => nm.2)
  · rw [if_pos hi, hr]
    exact ⟨[], some h.descriptors.length, by simp⟩
  · rw [if_neg hi, hr]
    exact ⟨[], r.actionClass, by simp⟩

theorem pushDependsOn_heapEvolves (h : Heap) (i : Nat) (grp : String) :
    HeapEvolves h (pushDependsOn h i grp) := by
  refine ⟨⟨[], by simp [pushDependsOn]⟩, fun j r hr => ?_⟩
  unfold pushDependsOn
  by_cases hj : j = i
  · subst hj
    rw [modifyIdx_get?_eq, hr]
    exact ⟨[grp], r.actionClass, by simp⟩
  · rw [modifyIdx_get?_ne _ _ _ _ hj, hr]
    exact ⟨[], r.actionClass, by simp⟩

theorem sortMethodsLoop_heapEvolves (ic : Bool) (clsGroup : String) :
    ∀ (ms : List (String × Nat)) (g : TopoGraph GNode) (h : Heap),
      HeapEvolves h (sortMethodsLoop ic clsGroup ms g h).2 := by
  intro ms
  induction ms with
  | nil => intro g h; exact HeapEvolves.refl h
  | cons nm ms ih =>
    intro g h
    obtain ⟨mn, i⟩ := nm
    simp only [sortMethodsLoop]
    have hstep : HeapEvolves h (if ic then pushDependsOn h i clsGroup else h) := by
      by_cases hic : ic
      · rw [if_pos hic]; exact pushDependsOn_heapEvolves h i clsGroup
      · rw [if_neg hic]; exact HeapEvolves.refl h
    cases addActionToGraph g ((if ic then pushDependsOn h i clsGroup else h).methodRecs.getD
        i default).group ((if ic then pushDependsOn h i clsGroup else h).methodRecs.getD
        i default).fulfills ((if ic then pushDependsOn h i clsGroup else h).methodRecs.getD
        i default).dependsOn (GNode.mth i) with
    | none => exact hstep
    | some g' => exact hstep.trans (ih g' _)

theorem sortClassesLoop_heapEvolves (ic : Bool) :
    ∀ (classes : List ActionClassReg) (g : TopoGraph GNode) (h : Heap),
      HeapEvolves h (sortClassesLoop ic classes g h).2 := by
  intro classes
  induction classes with
  | nil => intro g h; exact HeapEvolves.refl h
  | cons c cs ih =>
    intro g h
    simp only [sortClassesLoop]
    have h₁ := inspectAction_heapEvolves c h
    split
    · exact h₁
    · rename_i g₁ hag
      split
      · rename_i h₂' hm
        have h₂ := sortMethodsLoop_heapEvolves ic c.meta.group c.methods g₁ (inspectAction c h).2
        rw [hm] at h₂
        exact h₁.trans h₂
      · rename_i g₂ h₂' hm
        have h₂ := sortMethodsLoop_heapEvolves ic c.meta.group c.methods g₁ (inspectAction c h).2
        rw [hm] at h₂
        exact (h₁.trans h₂).trans (ih g₂ h₂')

/-- C9 amended, part 1: `sortActions` changes a stored metadata record in
place — but only by appending to `dependsOn` (the `method.dependsOn.push`
of the class group) and restamping the `actionClass` back-reference (via
`inspectAction`); all other fields survive, and descriptors only grow. -/
theorem sortActions_heap_frame (classes : List ActionClassReg) (ic rk : Bool) (h : Heap) :
    HeapEvolves h (sortActions classes ic rk h).2 := by
  unfold sortActions
  have hev := sortClassesLoop_heapEvolves ic classes TopoGraph.empty h
  rcases hscl : sortClassesLoop ic classes TopoGraph.empty h with ⟨og, h'⟩
  rw [hscl] at hev
  cases og with
  | none => exact hev
  | some g => cases rk <;> exact hev

theorem inspectAction_preserves_dependsOn (reg : ActionClassReg) (h : Heap) (i : Nat) :
    ((inspectAction reg h).2.methodRecs.get? i).map (fun r => r.dependsOn) =
      (h.methodRecs.get? i).map (fun r => r.dependsOn) := by
  rw [inspectAction_methodRecs_get?]
  by_cases hi : i ∈ reg.methods.map (fun nm => nm.2)
  · rw [if_pos hi]
    cases h.methodRecs.get? i <;> rfl
  · rw [if_neg hi]

theorem sortMethodsLoop_heap_of_not_ic (clsGroup : String) :
    ∀ (ms : List (String × Nat)) (g : TopoGraph GNode) (h : Heap),
      (sortMethodsLoop false clsGroup ms g h).2 = h := by
  intro ms
  induction ms with
  | nil => intro g h; rfl
  | cons nm ms ih =>
    intro g h
    obtain ⟨mn, i⟩ := nm
    simp only [sortMethodsLoop, Bool.false_eq_true, if_false]
    split
    · rfl
    · exact ih _ _

theorem sortClassesLoop_preserves_dependsOn :
    ∀ (classes : List ActionClassReg) (g : TopoGraph GNode) (h : Heap) (i : Nat),
      ((sortClassesLoop false classes g h).2.methodRecs.get? i).map (fun r => r.dependsOn) =
        (h.methodRecs.get? i).map (fun r => r.dependsOn) := by
  intro classes
  induction classes with
  | nil => intro g h i; rfl
  | cons c cs ih =>
    intro g h i
    simp only [sortClassesLoop, Bool.false_eq_true, if_false]
    split
    · rename_i h₂' hm
      have h1 : h₂' = (inspectAction c h).2 := by
        have := sortMethodsLoop_heap_of_not_ic c.meta.group c.methods g (inspectAction c h).2
        rw [hm] at this
        exact this
      rw [h1]
      exact inspectAction_preserves_dependsOn c h i
    · rename_i g₂ h₂' hm
      have h1 : h₂' = (inspectAction c h).2 := by
        have := sortMethodsLoop_heap_of_not_ic c.meta.group c.methods g (inspectAction c h).2
        rw [hm] at this
        exact this
      rw [ih g₂ h₂' i, h1]
      exact inspectAction_preserves_dependsOn c h i

/-- C9 amended: the Graph Builder does mutate `ActionMetadata` records in
place, but only in two ways, both performed by `sortActions`: appending
entries to a method record's `dependsOn` (the `method.dependsOn.push` of the
owning class's group when `includeClasses` is set) and overwriting the
`actionClass` back-reference during `inspectAction`; every other field of
every record is preserved, and with `includeClasses` unset even `dependsOn`
is untouched.  (`addActionToGraph` and `sortActionClasses` read the heap not
at all: in this embedding they are functions of the graph and registry
alone.) -/
theorem sortActions_metadata_mutation_spec (classes : List ActionClassReg)
    (ic rk : Bool) (h : Heap) :
    HeapEvolves h (sortActions classes ic rk h).2
    ∧ (∀ i, ((sortActions classes false rk h).2.methodRecs.get? i).map
          (fun r => r.dependsOn)
        = (h.methodRecs.get? i).map (fun r => r.dependsOn)) := by
  refine ⟨sortActions_heap_frame classes ic rk h, fun i => ?_⟩
  unfold sortActions
  have hp := sortClassesLoop_preserves_dependsOn classes TopoGraph.empty h i
  rcases hscl : sortClassesLoop false classes TopoGraph.empty h with ⟨og, h'⟩
  rw [hscl] at hp
  cases og with
  | none => exact hp
  | some g => cases rk <;> exact hp

/-- C9 counterexample: `sortActions` with `includeClasses` set pushes the
class group onto the stored method record's `dependsOn` in place — the
record in the registry heap reads `["class:C"]` after the sort although it
was registered with an empty `dependsOn`, refuting the claimed immutability
of metadata after definition time. -/
theorem sortActions_mutates_metadata_counterexample :
    ((sortActions [⟨⟨"C", "class:C", [], []⟩, [("m", 0)]⟩] true false
        ⟨[⟨"method:C.prototype.m", [], [], "m", none, none⟩], []⟩).2.methodRecs.getD 0
      default).dependsOn = ["class:C"]
    ∧ (([⟨"method:C.prototype.m", [], [], "m", none, none⟩] : List MethodRec).getD 0
        default).dependsOn = [] := by
  constructor <;> decide

/-! ### Characterization of `addActionToGraph` -/

theorem groupExists_iff (g : TopoGraph γ) (k : String) :
    g.groupExists k = true ↔ k ∈ g.items.map (fun it => it.group) := by
  unfold TopoGraph.groupExists
  rw [List.any_eq_true]
  constructor
  · rintro ⟨it, hmem, hbeq⟩
    exact List.mem_map.mpr ⟨it, hmem, beq_iff_eq.mp hbeq⟩
  · intro hm
    obtain ⟨it, hmem, hgr⟩ := List.mem_map.mp hm
    exact ⟨it, hmem, beq_iff_eq.mpr hgr⟩

/-- The key groups for which `addActionToGraph` creates a placeholder node,
following the spec's steps 1–2: a key is added exactly when no node with that
group exists yet, where the freshly added keys count as existing for later
keys of the same call. -/
def newKeyGroups (existing : List String) : List String → List String
  | [] => []
  | k :: ks =>
    if k ∈ existing then newKeyGroups existing ks
    else k :: newKeyGroups (existing ++ [k]) ks

/-- The placeholder key items generated from a base sequence number. -/
def keyItemsFrom (base : Nat) : List String → List (TopoItem GNode)
  | [] => []
  | k :: ks => ⟨base, [], [], k, GNode.key k⟩ :: keyItemsFrom (base + 1) ks

theorem keyItemsFrom_length (base : Nat) (ks : List String) :
    (keyItemsFrom base ks).length = ks.length := by
  induction ks generalizing base with
  | nil => rfl
  | cons k ks ih => simpa [keyItemsFrom] using ih (base + 1)

theorem mem_newKeyGroups {k : String} :
    ∀ {ks existing : List String},
      k ∈ newKeyGroups existing ks ↔ k ∈ ks ∧ k ∉ existing := by
  intro ks
  induction ks with
  | nil => intro ex; simp [newKeyGroups]
  | cons  j ks ih =>
    intro ex
    by_cases hj : j ∈ ex
    · rw [newKeyGroups, if_pos hj, ih]
      constructor
      · rintro ⟨h1, h2⟩; exact ⟨List.mem_cons_of_mem j h1, h2⟩
      · rintro ⟨h1, h2⟩
        rcases List.mem_cons.mp h1 with rfl | h1
        · exact absurd hj h2
        · exact ⟨h1, h2⟩
    · rw [newKeyGroups, if_neg hj]
      constructor
      · intro hmem
        rcases List.mem_cons.mp hmem with rfl | hmem
        · exact ⟨List.mem_cons_self k ks, hj⟩
        · obtain ⟨h1, h2⟩ := ih.mp hmem
          refine ⟨List.mem_cons_of_mem j h1, fun hx => h2 ?_⟩
          simp [hx]
      · rintro ⟨h1, h2⟩
        rcases List.mem_cons.mp h1 with rfl | h1
        · exact List.mem_cons_self k _
        · by_cases hkj : k = j
          · subst hkj; exact List.mem_cons_self k _
          · refine List.mem_cons_of_mem j (ih.mpr ⟨h1, fun hx => ?_⟩)
            rcases List.mem_append.mp hx with hx | hx
            · exact h2 hx
            · simp at hx; exact hkj hx

theorem TopoGraph.add_eq_some {g g' : TopoGraph γ} {nd : γ} {grp : String}
    {bef aft : List String} (h : g.add nd grp bef aft = some g') :
    g'.items = g.items ++
      [{ seq := g.items.length, before := bef, after := aft, group := grp, node := nd }] := by
  unfold TopoGraph.add at h
  dsimp only at h
  split at h
  · exact Option.noConfusion h
  · cases h; rfl

theorem addKey_fold_none (ks : List String) :
    ks.foldl addKeyStep (none : Option (TopoGraph GNode)) = none := by
  induction ks with
  | nil => rfl
  | cons x xs ihx => simpa [addKeyStep] using ihx

/-- The key-adding fold of `addActionToGraph`, characterized: on success the
graph grows by exactly the key items of `newKeyGroups`, numbered
consecutively. -/
theorem addKey_fold_spec :
    ∀ (ks : List String) (g g' : TopoGraph GNode),
      ks.foldl addKeyStep (some g) = some g' →
      g'.items = g.items ++
        keyItemsFrom g.items.length (newKeyGroups (g.items.map (fun it => it.group)) ks) := by
  intro ks
  induction ks with
  | nil =>
    intro g g' h
    simp only [List.foldl_nil, Option.some.injEq] at h
    subst h
    simp [newKeyGroups, keyItemsFrom]
  | cons k ks ih =>
    intro g g' h
    rw [List.foldl_cons] at h
    simp only [addKeyStep] at h
    by_cases hex : g.groupExists k = true
    · rw [if_pos hex] at h
      rw [ih g g' h, newKeyGroups, if_pos ((groupExists_iff g k).mp hex)]
    · rw [if_neg hex] at h
      cases hadd : TopoGraph.add g (GNode.key k) k [] [] with
      | none =>
        rw [hadd] at h
        rw [addKey_fold_none] at h
        exact Option.noConfusion h
      | some g₁ =>
        rw [hadd] at h
        have hg₁ := TopoGraph.add_eq_some hadd
        have hng : k ∉ g.items.map (fun it => it.group) := by
          intro hm
          exact hex ((groupExists_iff g k).mpr hm)
        rw [newKeyGroups, if_neg hng]
        have hrec := ih g₁ g' h
        have hg₁groups : g₁.items.map (fun it => it.group) =
            g.items.map (fun it => it.group) ++ [k] := by
          rw [hg₁]; simp
        have hg₁len : g₁.items.length = g.items.length + 1 := by
          rw [hg₁]; simp
        rw [hrec, hg₁groups, hg₁len, hg₁]
        simp [keyItemsFrom, List.append_assoc]

/-- C5. `addActionToGraph(graph, meta)` performs exactly the three spec
steps: scanning `fulfills` then `dependsOn` in order, it adds a placeholder
key node for each key no existing item's group matches (the check is by
group name, via `groupExists`, and keys added earlier in the same call count
as existing), then adds the action's own node with `before = fulfills`,
`after = dependsOn` and the next sequence number. -/
theorem addActionToGraph_spec {g g' : TopoGraph GNode} {grp : String}
    {fulfills dependsOn : List String} {payload : GNode}
    (h : addActionToGraph g grp fulfills dependsOn payload = some g') :
    g'.items = g.items
      ++ keyItemsFrom g.items.length
          (newKeyGroups (g.items.map (fun it => it.group)) (fulfills ++ dependsOn))
      ++ [{ seq := g.items.length +
              (newKeyGroups (g.items.map (fun it => it.group))
                (fulfills ++ dependsOn)).length,
            before := fulfills, after := dependsOn, group := grp, node := payload }]
    ∧ (∀ k, k ∈ newKeyGroups (g.items.map (fun it => it.group)) (fulfills ++ dependsOn)
        ↔ (k ∈ fulfills ++ dependsOn ∧ ¬ g.groupExists k = true)) := by
  constructor
  · unfold addActionToGraph at h
    split at h
    · exact Option.noConfusion h
    · rename_i g₁ hfold
      have h₁ := addKey_fold_spec _ g g₁ hfold
      have h₂ := TopoGraph.add_eq_some h
      rw [h₂, h₁]
      simp [keyItemsFrom_length]
  · intro k
    rw [mem_newKeyGroups]
    constructor
    · rintro ⟨h1, h2⟩
      exact ⟨h1, fun he => h2 ((groupExists_iff g k).mp he)⟩
    · rintro ⟨h1, h2⟩
      exact ⟨h1, fun hm => h2 ((groupExists_iff g k).mpr hm)⟩

/-- C5 witness: a concrete add, with one fulfilled key already present (as an
action group, exercising the scan-by-group-name rule) and one fresh
dependsOn key. -/
theorem addActionToGraph_spec_witness :
    addActionToGraph ⟨[⟨0, [], [], "x", GNode.clsMeta ⟨"X", "x", [], []⟩⟩]⟩ "a" ["x"] ["y"]
        (GNode.clsMeta ⟨"A", "a", ["x"], ["y"]⟩) =
      some ⟨[⟨0, [], [], "x", GNode.clsMeta ⟨"X", "x", [], []⟩⟩,
        ⟨1, [], [], "y", GNode.key "y"⟩,
        ⟨2, ["x"], ["y"], "a", GNode.clsMeta ⟨"A", "a", ["x"], ["y"]⟩⟩]⟩
    ∧ (([⟨0, [], [], "x", GNode.clsMeta ⟨"X", "x", [], []⟩⟩,
        ⟨1, [], [], "y", GNode.key "y"⟩,
        ⟨2, ["x"], ["y"], "a", GNode.clsMeta ⟨"A", "a", ["x"], ["y"]⟩⟩] :
          List (TopoItem GNode)) =
      [⟨0, [], [], "x", GNode.clsMeta ⟨"X", "x", [], []⟩⟩]
        ++ keyItemsFrom 1 (newKeyGroups ["x"] (["x"] ++ ["y"]))
        ++ [⟨1 + (newKeyGroups ["x"] (["x"] ++ ["y"])).length, ["x"], ["y"], "a",
            GNode.clsMeta ⟨"A", "a", ["x"], ["y"]⟩⟩]) := by
  have hadd : addActionToGraph ⟨[⟨0, [], [], "x", GNode.clsMeta ⟨"X", "x", [], []⟩⟩]⟩ "a"
      ["x"] ["y"] (GNode.clsMeta ⟨"A", "a", ["x"], ["y"]⟩) =
      some ⟨[⟨0, [], [], "x", GNode.clsMeta ⟨"X", "x", [], []⟩⟩,
        ⟨1, [], [], "y", GNode.key "y"⟩,
        ⟨2, ["x"], ["y"], "a", GNode.clsMeta ⟨"A", "a", ["x"], ["y"]⟩⟩]⟩ := by decide
  refine ⟨hadd, ?_⟩
  have := (addActionToGraph_spec hadd).1
  simpa using this

/-! ### Well-formedness of built graphs: sortability and increasing
insertion sequence numbers -/

/-- Invariant of every graph reachable through `TopoGraph.add`: the item set
sorts successfully and sequence numbers increase with position (each is below
the item count). -/
def GraphWF (g : TopoGraph GNode) : Prop :=
  (topoSort g.items).isSome = true ∧
  g.items.Pairwise (fun a b => a.seq < b.seq) ∧
  ∀ it ∈ g.items, it.seq < g.items.length

theorem graphWF_empty : GraphWF TopoGraph.empty := by
  refine ⟨rfl, List.Pairwise.nil, ?_⟩
  intro it hit
  simp [TopoGraph.empty] at hit

theorem TopoGraph.add_wf {g g' : TopoGraph GNode} {nd : GNode} {grp : String}
    {bef aft : List String} (h : g.add nd grp bef aft = some g')
    (hwf : GraphWF g) : GraphWF g' := by
  have hitems := TopoGraph.add_eq_some h
  have hsort : (topoSort g'.items).isSome = true := by
    unfold TopoGraph.add at h
    dsimp only at h
    split at h
    · exact Option.noConfusion h
    · rename_i val hval
      cases h
      simp [hval]
  refine ⟨hsort, ?_, ?_⟩
  · rw [hitems, List.pairwise_append]
    refine ⟨hwf.2.1, List.pairwise_singleton _ _, ?_⟩
    intro a ha b hb
    simp only [List.mem_singleton] at hb
    subst hb
    exact hwf.2.2 a ha
  · intro it hit
    rw [hitems] at hit ⊢
    simp only [List.length_append, List.length_singleton]
    rcases List.mem_append.mp hit with h1 | h1
    · have := hwf.2.2 it h1; omega
    · simp only [List.mem_singleton] at h1
      subst h1
      simp

theorem addKey_fold_wf :
    ∀ (ks : List String) (g g' : TopoGraph GNode),
      ks.foldl addKeyStep (some g) = some g' → GraphWF g → GraphWF g' := by
  intro ks
  induction ks with
  | nil =>
    intro g g' h hwf
    simp only [List.foldl_nil, Option.some.injEq] at h
    subst h; exact hwf
  | cons k ks ih =>
    intro g g' h hwf
    rw [List.foldl_cons] at h
    simp only [addKeyStep] at h
    by_cases hex : g.groupExists k = true
    · rw [if_pos hex] at h
      exact ih g g' h hwf
    · rw [if_neg hex] at h
      cases hadd : TopoGraph.add g (GNode.key k) k [] [] with
      | none =>
        rw [hadd, addKey_fold_none] at h
        exact Option.noConfusion h
      | some g₁ =>
        rw [hadd] at h
        exact ih g₁ g' h (TopoGraph.add_wf hadd hwf)

theorem addActionToGraph_wf {g g' : TopoGraph GNode} {grp : String}
    {fulfills dependsOn : List String} {payload : GNode}
    (h : addActionToGraph g grp fulfills dependsOn payload = some g')
    (hwf : GraphWF g) : GraphWF g' := by
  unfold addActionToGraph at h
  split at h
  · exact Option.noConfusion h
  · rename_i g₁ hfold
    exact TopoGraph.add_wf h (addKey_fold_wf _ g g₁ hfold hwf)

theorem sortMethodsLoop_wf (ic : Bool) (cg : String) :
    ∀ (ms : List (String × Nat)) (g : TopoGraph GNode) (h : Heap)
      (g' : TopoGraph GNode) (h' : Heap),
      sortMethodsLoop ic cg ms g h = (some g', h') → GraphWF g → GraphWF g' := by
  intro ms
  induction ms with
  | nil =>
    intro g h g' h' heq hwf
    simp only [sortMethodsLoop, Prod.mk.injEq, Option.some.injEq] at heq
    exact heq.1 ▸ hwf
  | cons nm ms ih =>
    intro g h g' h' heq hwf
    obtain ⟨mn, i⟩ := nm
    simp only [sortMethodsLoop] at heq
    split at heq
    · exact absurd heq (by simp)
    · rename_i g₁ hadd
      exact ih g₁ _ g' h' heq (addActionToGraph_wf hadd hwf)

theorem sortClassesLoop_wf (ic : Bool) :
    ∀ (classes : List ActionClassReg) (g : TopoGraph GNode) (h : Heap)
      (g' : TopoGraph GNode) (h' : Heap),
      sortClassesLoop ic classes g h = (some g', h') → GraphWF g → GraphWF g' := by
  intro classes
  induction classes with
  | nil =>
    intro g h g' h' heq hwf
    simp only [sortClassesLoop, Prod.mk.injEq, Option.some.injEq] at heq
    exact heq.1 ▸ hwf
  | cons c cs ih =>
    intro g h g' h' heq hwf
    simp only [sortClassesLoop] at heq
    split at heq
    · exact absurd heq (by simp)
    · rename_i g₁ hag
      have hwf₁ : GraphWF g₁ := by
        by_cases hic : ic = true
        · rw [if_pos hic] at hag
          exact addActionToGraph_wf hag hwf
        · rw [if_neg hic] at hag
          cases hag
          exact hwf
      split at heq
      · exact absurd heq (by simp)
      · rename_i g₂ h₂ hm
        exact ih g₂ h₂ g' h' heq (sortMethodsLoop_wf ic c.meta.group c.methods g₁ _ g₂ h₂ hm hwf₁)

theorem sortActionClasses_fold_wf :
    ∀ (classes : List ActionClassReg) (g g' : TopoGraph GNode),
      (classes.foldl (fun og c =>
          match og with
          | none => none
          | some g => addActionToGraph g c.meta.group c.meta.fulfills c.meta.dependsOn
              (GNode.clsMeta c.meta))
        (some g)) = some g' → GraphWF g → GraphWF g' := by
  intro classes
  induction classes with
  | nil =>
    intro g g' h hwf
    simp only [List.foldl_nil, Option.some.injEq] at h
    subst h; exact hwf
  | cons c cs ih =>
    intro g g' h hwf
    rw [List.foldl_cons] at h
    dsimp only at h
    cases hadd : addActionToGraph g c.meta.group c.meta.fulfills c.meta.dependsOn
        (GNode.clsMeta c.meta) with
    | none =>
      rw [hadd] at h
      have hnone : ∀ (l : List ActionClassReg),
          (l.foldl (fun og c =>
            match og with
            | none => none
            | some g => addActionToGraph g c.meta.group c.meta.fulfills c.meta.dependsOn
                (GNode.clsMeta c.meta))
          (none : Option (TopoGraph GNode))) = none := by
        intro l; induction l with
        | nil => rfl
        | cons x xs ihx => simpa using ihx
      rw [hnone] at h
      exact Option.noConfusion h
    | some g₁ =>
      rw [hadd] at h
      exact ih g₁ g' h (addActionToGraph_wf hadd hwf)

theorem sortActionClasses_wf {classes : List ActionClassReg} {rk : Bool} {ag : ActionGraph}
    (h : sortActionClasses classes rk = some ag) :
    GraphWF ag.graph ∧ (ag.actions = ag.graph.nodes ∨
      ag.actions = ag.graph.nodes.filter isObjectNode) := by
  unfold sortActionClasses at h
  dsimp only at h
  split at h
  · exact Option.noConfusion h
  · rename_i g hfold
    have hwf := sortActionClasses_fold_wf classes TopoGraph.empty g hfold graphWF_empty
    by_cases hrk : rk = true
    · rw [if_pos hrk] at h
      cases h
      exact ⟨hwf, Or.inr rfl⟩
    · rw [if_neg hrk] at h
      cases h
      exact ⟨hwf, Or.inl rfl⟩

theorem sortActions_wf {classes : List ActionClassReg} {ic rk : Bool} {h : Heap}
    {ag : ActionGraph} {h' : Heap}
    (heq : sortActions classes ic rk h = (some ag, h')) :
    GraphWF ag.graph ∧ (ag.actions = ag.graph.nodes ∨
      ag.actions = ag.graph.nodes.filter isObjectNode) := by
  unfold sortActions at heq
  rcases hscl : sortClassesLoop ic classes TopoGraph.empty h with ⟨og, h₂⟩
  rw [hscl] at heq
  cases og with
  | none => exact absurd heq (by simp)
  | some g =>
    have hwf := sortClassesLoop_wf ic classes TopoGraph.empty h g h₂ hscl graphWF_empty
    dsimp only at heq
    by_cases hrk : rk = true
    · rw [if_pos hrk] at heq
      simp only [Prod.mk.injEq, Option.some.injEq] at heq
      rw [← heq.1]
      exact ⟨hwf, Or.inr rfl⟩
    · rw [if_neg hrk] at heq
      simp only [Prod.mk.injEq, Option.some.injEq] at heq
      rw [← heq.1]
      exact ⟨hwf, Or.inl rfl⟩

/-- C1 amended: every order produced by `sortActions`/`sortActionClasses`
satisfies every before/after constraint (a node constrained to precede
another appears strictly earlier); the tie-break is stable in the Kahn sense:
whenever two emitted nodes appear out of insertion order, some node from the
earlier position up to just before the later one is constrained to precede
the later-inserted node (it was still blocked) — but two mutually
unconstrained nodes may appear out of insertion order when one of them
transitively awaits a later node.  Both sorters produce sortable graphs with
insertion-ordered sequence numbers, and their `actions` order is the sorted
payload list (optionally key-filtered). -/
theorem sorted_order_constraints_and_stability :
    (∀ (items sorted : List (TopoItem GNode)), topoSort items = some sorted →
      ∀ p q (hp : p < sorted.length) (hq : q < sorted.length),
        MustPrecede (sorted.get ⟨p, hp⟩) (sorted.get ⟨q, hq⟩) → p < q)
    ∧ (∀ (items sorted : List (TopoItem GNode)), topoSort items = some sorted →
        items.Pairwise (fun a b => a.seq < b.seq) →
        ∀ p q (hp : p < sorted.length) (hq : q < sorted.length), p < q →
          (sorted.get ⟨q, hq⟩).seq < (sorted.get ⟨p, hp⟩).seq →
          ∃ r, ∃ hr : r < sorted.length, p ≤ r ∧ r < q ∧
            MustPrecede (sorted.get ⟨r, hr⟩) (sorted.get ⟨q, hq⟩))
    ∧ (∀ (classes : List ActionClassReg) (rk : Bool) (ag : ActionGraph),
        sortActionClasses classes rk = some ag →
        (∃ sorted, topoSort ag.graph.items = some sorted)
        ∧ ag.graph.items.Pairwise (fun a b => a.seq < b.seq)
        ∧ (ag.actions = ag.graph.nodes ∨ ag.actions = ag.graph.nodes.filter isObjectNode))
    ∧ (∀ (classes : List ActionClassReg) (ic rk : Bool) (h : Heap)
        (ag : ActionGraph) (h' : Heap),
        sortActions classes ic rk h = (some ag, h') →
        (∃ sorted, topoSort ag.graph.items = some sorted)
        ∧ ag.graph.items.Pairwise (fun a b => a.seq < b.seq)
        ∧ (ag.actions = ag.graph.nodes ∨ ag.actions = ag.graph.nodes.filter isObjectNode)) := by
  refine ⟨?_, ?_, ?_, ?_⟩
  · intro items sorted h p q hp hq hM
    by_contra hge
    exact sortLoop_no_back_constraint h p q hp hq (by omega) hM
  · intro items sorted h hpw p q hp hq hpq hseq
    exact sortLoop_stable hpw h p q hp hq hpq hseq
  · intro classes rk ag h
    obtain ⟨⟨hs, hpw, -⟩, hact⟩ := sortActionClasses_wf h
    exact ⟨Option.isSome_iff_exists.mp hs, hpw, hact⟩
  · intro classes ic rk h ag h' heq
    obtain ⟨⟨hs, hpw, -⟩, hact⟩ := sortActions_wf heq
    exact ⟨Option.isSome_iff_exists.mp hs, hpw, hact⟩

/-- C1 witness: the amended statement applied to the concrete three-class
scenario (the constraint from class `c` fulfilling `x` forces position
1 < 2 in the sorted output; the sorter link instantiated as well). -/
theorem sorted_order_constraints_witness :
    ((1 : Nat) < 2) ∧
    (∃ sorted, topoSort (([⟨0, [], [], "x", GNode.key "x"⟩,
        ⟨1, [], ["x"], "a", GNode.clsMeta ⟨"A", "a", [], ["x"]⟩⟩,
        ⟨2, [], [], "b", GNode.clsMeta ⟨"B", "b", [], []⟩⟩,
        ⟨3, ["x"], [], "c", GNode.clsMeta ⟨"C", "c", ["x"], []⟩⟩] :
          List (TopoItem GNode))) = some sorted) := by
  constructor
  · exact sorted_order_constraints_and_stability.1
      [⟨0, [], [], "x", GNode.key "x"⟩,
        ⟨1, [], ["x"], "a", GNode.clsMeta ⟨"A", "a", [], ["x"]⟩⟩,
        ⟨2, [], [], "b", GNode.clsMeta ⟨"B", "b", [], []⟩⟩,
        ⟨3, ["x"], [], "c", GNode.clsMeta ⟨"C", "c", ["x"], []⟩⟩]
      [⟨2, [], [], "b", GNode.clsMeta ⟨"B", "b", [], []⟩⟩,
        ⟨3, ["x"], [], "c", GNode.clsMeta ⟨"C", "c", ["x"], []⟩⟩,
        ⟨0, [], [], "x", GNode.key "x"⟩,
        ⟨1, [], ["x"], "a", GNode.clsMeta ⟨"A", "a", [], ["x"]⟩⟩]
      (by decide) 1 2 (by decide) (by decide) (by decide)
  · exact ⟨[⟨2, [], [], "b", GNode.clsMeta ⟨"B", "b", [], []⟩⟩,
      ⟨3, ["x"], [], "c", GNode.clsMeta ⟨"C", "c", ["x"], []⟩⟩,
      ⟨0, [], [], "x", GNode.key "x"⟩,
      ⟨1, [], ["x"], "a", GNode.clsMeta ⟨"A", "a", [], ["x"]⟩⟩], by decide⟩

/-- C1 counterexample: in the order `sortActionClasses` produces for classes
`a` (dependsOn `x`), `b` (unconstrained), `c` (fulfills `x`), the nodes `a`
and `b` have no constraint between them in either direction (not even
transitively), `a` was inserted before `b` (sequence 1 vs 2), yet the output
order is `[b, c, x, a]` — `b` precedes `a` — refuting the claimed
insertion-order tie-break for unconstrained pairs. -/
theorem sorted_insertion_order_counterexample :
    (sortActionClasses [⟨⟨"A", "a", [], ["x"]⟩, []⟩, ⟨⟨"B", "b", [], []⟩, []⟩,
        ⟨⟨"C", "c", ["x"], []⟩, []⟩] false).map (fun ag => ag.graph.items) =
      some [⟨0, [], [], "x", GNode.key "x"⟩,
        ⟨1, [], ["x"], "a", GNode.clsMeta ⟨"A", "a", [], ["x"]⟩⟩,
        ⟨2, [], [], "b", GNode.clsMeta ⟨"B", "b", [], []⟩⟩,
        ⟨3, ["x"], [], "c", GNode.clsMeta ⟨"C", "c", ["x"], []⟩⟩]
    ∧ topoSort ([⟨0, [], [], "x", GNode.key "x"⟩,
        ⟨1, [], ["x"], "a", GNode.clsMeta ⟨"A", "a", [], ["x"]⟩⟩,
        ⟨2, [], [], "b", GNode.clsMeta ⟨"B", "b", [], []⟩⟩,
        ⟨3, ["x"], [], "c", GNode.clsMeta ⟨"C", "c", ["x"], []⟩⟩] :
          List (TopoItem GNode)) =
      some [⟨2, [], [], "b", GNode.clsMeta ⟨"B", "b", [], []⟩⟩,
        ⟨3, ["x"], [], "c", GNode.clsMeta ⟨"C", "c", ["x"], []⟩⟩,
        ⟨0, [], [], "x", GNode.key "x"⟩,
        ⟨1, [], ["x"], "a", GNode.clsMeta ⟨"A", "a", [], ["x"]⟩⟩]
    ∧ (⟨1, [], ["x"], "a", GNode.clsMeta ⟨"A", "a", [], ["x"]⟩⟩ : TopoItem GNode).seq <
        (⟨2, [], [], "b", GNode.clsMeta ⟨"B", "b", [], []⟩⟩ : TopoItem GNode).seq
    ∧ ¬ Relation.TransGen (ConstraintStep [⟨0, [], [], "x", GNode.key "x"⟩,
        ⟨1, [], ["x"], "a", GNode.clsMeta ⟨"A", "a", [], ["x"]⟩⟩,
        ⟨2, [], [], "b", GNode.clsMeta ⟨"B", "b", [], []⟩⟩,
        ⟨3, ["x"], [], "c", GNode.clsMeta ⟨"C", "c", ["x"], []⟩⟩])
        ⟨1, [], ["x"], "a", GNode.clsMeta ⟨"A", "a", [], ["x"]⟩⟩
        ⟨2, [], [], "b", GNode.clsMeta ⟨"B", "b", [], []⟩⟩
    ∧ ¬ Relation.TransGen (ConstraintStep [⟨0, [], [], "x", GNode.key "x"⟩,
        ⟨1, [], ["x"], "a", GNode.clsMeta ⟨"A", "a", [], ["x"]⟩⟩,
        ⟨2, [], [], "b", GNode.clsMeta ⟨"B", "b", [], []⟩⟩,
        ⟨3, ["x"], [], "c", GNode.clsMeta ⟨"C", "c", ["x"], []⟩⟩])
        ⟨2, [], [], "b", GNode.clsMeta ⟨"B", "b", [], []⟩⟩
        ⟨1, [], ["x"], "a", GNode.clsMeta ⟨"A", "a", [], ["x"]⟩⟩ := by
  refine ⟨by decide, by decide, by decide, ?_, ?_⟩
  · exact not_transGen_of_no_in_edge (by decide) _
  · exact not_transGen_of_no_out_edge (by decide) _

/-- C2. A cycle among the before/after constraints makes sorting fail: any
chain of constraints returning to its start forces `topoSort` to `none`,
hence any `TopoGraph.add` completing such a set raises; in particular the
spec's synthetic pair — `A` fulfills `x`, depends on `y`; `B` fulfills `y`,
depends on `x` — makes `sortActionClasses` (class level) and `sortActions`
(method level) fail outright, with no partial order produced. -/
theorem sort_fails_on_cycle :
    (∀ (items : List (TopoItem GNode)) (x : TopoItem GNode),
      Relation.TransGen (ConstraintStep items) x x → topoSort items = none)
    ∧ sortActionClasses
        [⟨⟨"A", "A", ["x"], ["y"]⟩, []⟩, ⟨⟨"B", "B", ["y"], ["x"]⟩, []⟩] false = none
    ∧ (sortActions
        [⟨⟨"A", "A", [], []⟩, [("a", 0)]⟩, ⟨⟨"B", "B", [], []⟩, [("b", 1)]⟩] false false
        ⟨[⟨"A.a", ["x"], ["y"], "a", none, none⟩,
          ⟨"B.b", ["y"], ["x"], "b", none, none⟩], []⟩).1 = none := by
  exact ⟨fun items x hc => topoSort_cycle_none hc, by decide, by decide⟩

/-- C2 witness: a two-item constraint cycle, shown to make `topoSort` fail by
applying the cycle theorem to an explicit two-step chain. -/
theorem sort_fails_on_cycle_witness :
    topoSort ([⟨0, ["b"], [], "a", GNode.key "a"⟩,
      ⟨1, ["a"], [], "b", GNode.key "b"⟩] : List (TopoItem GNode)) = none := by
  have s1 : ConstraintStep [⟨0, ["b"], [], "a", GNode.key "a"⟩,
      ⟨1, ["a"], [], "b", GNode.key "b"⟩] ⟨0, ["b"], [], "a", GNode.key "a"⟩
      ⟨1, ["a"], [], "b", GNode.key "b"⟩ := ⟨by decide, by decide, by decide⟩
  have s2 : ConstraintStep [⟨0, ["b"], [], "a", GNode.key "a"⟩,
      ⟨1, ["a"], [], "b", GNode.key "b"⟩] ⟨1, ["a"], [], "b", GNode.key "b"⟩
      ⟨0, ["b"], [], "a", GNode.key "a"⟩ := ⟨by decide, by decide, by decide⟩
  exact sort_fails_on_cycle.1 _ _ ((Relation.TransGen.single s1).tail s2)

/-! ### The executor against the spec's description -/

/-- The method records of the method-bearing action nodes of an order, in
order (the spec's "cached order filtered to method-bearing action nodes"). -/
def methodRecsOf (h : Heap) (ns : List GNode) : List MethodRec :=
  ns.filterMap (fun n =>
    match n with
    | GNode.mth i =>
      if (h.methodRecs.getD i default).method ≠ "" then some (h.methodRecs.getD i default)
      else none
    | _ => none)

/-- Publication rule from the spec: publish the result into the store under
`bindsReturnValueAs` exactly when the result is defined and the key is
declared (truthy); otherwise leave the store untouched. -/
def specPublish (st : List (String × V)) (m : MethodRec) (r : Option V) :
    List (String × V) :=
  match r, m.bindsReturnValueAs with
  | some v, some k => if k ≠ "" then bindStore st k v else st
  | _, _ => st

/-- The Sequence Executor as described by the spec (§4.5): walk the
method-bearing records strictly sequentially — resolve the owning instance,
invoke the method, suspend until it completes, publish per the publication
rule, then proceed; any error stops the walk and propagates with the store as
already written. -/
def specExecutor (resolve : MethodRec → List (String × V) → Except E I)
    (invokeM : I → String → List (String × V) → Except E (Option V)) :
    List MethodRec → List (String × V) → Option E × List (String × V)
  | [], st => (none, st)
  | m :: ms, st =>
    match resolve m st with
    | Except.error e => (some e, st)
    | Except.ok inst =>
      match invokeM inst m.method st with
      | Except.error e => (some e, st)
      | Except.ok r => specExecutor resolve invokeM ms (specPublish st m r)

theorem runLoop_filter_eq_specExecutor
    (resolve : MethodRec → List (String × V) → Except E I)
    (invokeM : I → String → List (String × V) → Except E (Option V)) (h : Heap) :
    ∀ (ns : List GNode) (st : List (String × V)),
      runLoop resolve invokeM h (ns.filter (isMethodNode h)) st =
        specExecutor resolve invokeM (methodRecsOf h ns) st := by
  intro ns
  induction ns with
  | nil => intro st; rfl
  | cons n ns ih =>
    intro st
    cases n with
    | key k => simpa [List.filter, isMethodNode, methodRecsOf] using ih st
    | clsMeta m => simpa [List.filter, isMethodNode, methodRecsOf] using ih st
    | cls d => simpa [List.filter, isMethodNode, methodRecsOf] using ih st
    | mth i =>
      by_cases hm : (h.methodRecs.getD i default).method = ""
      · have hfilter : isMethodNode h (GNode.mth i) = false := by
          simp only [isMethodNode]
          rw [hm]
          rfl
        simp only [List.filter, hfilter, methodRecsOf, List.filterMap]
        simp only [hm, ne_eq, not_true_eq_false, if_false]
        exact ih st
      · have hfilter : isMethodNode h (GNode.mth i) = true := by
          simp only [isMethodNode]
          exact bne_iff_ne.mpr hm
        simp only [List.filter, hfilter, methodRecsOf, List.filterMap]
        simp only [ne_eq, hm, not_false_eq_true, if_true]
        simp only [runLoop, specExecutor]
        cases resolve (h.methodRecs.getD i default) st with
        | error e => rfl
        | ok inst =>
          dsimp only
          cases invokeM inst (h.methodRecs.getD i default).method st with
          | error e => rfl
          | ok r =>
            dsimp only
            have := ih (specPublish st (h.methodRecs.getD i default) r)
            simp only [methodRecsOf] at this
            exact this

/-- C6. `Sequence.run()` executes exactly the method-bearing action nodes of
the cached sorted order, in that order and strictly sequentially: with the
graph built, `run` coincides with the spec's sequential executor over those
records (each invocation completes, and its result is published, before the
next record is touched); key and class nodes are skipped; the store is
written after an invocation if and only if the result is defined and
`bindsReturnValueAs` is declared (truthy), and is untouched otherwise. -/
theorem sequence_run_spec :
    (∀ (resolve : MethodRec → List (String × V) → Except E I) invokeM (h : Heap)
      (ns : List GNode) (st : List (String × V)),
      runLoop resolve invokeM h (ns.filter (isMethodNode h)) st =
        specExecutor resolve invokeM (methodRecsOf h ns) st)
    ∧ (∀ (configError : E) (resolve : MethodRec → List (String × V) → Except E I)
        invokeM (s : Sequence) (st : List (String × V)) (g : ActionGraph) (s' : Sequence),
        Sequence.buildGraph s = (some g, s') →
        Sequence.run configError resolve invokeM s st =
          ((specExecutor resolve invokeM (methodRecsOf s'.heap g.actions) st).1,
            (specExecutor resolve invokeM (methodRecsOf s'.heap g.actions) st).2, s'))
    ∧ (∀ (st : List (String × V)) (m : MethodRec) (v : V) (k : String),
        m.bindsReturnValueAs = some k → k ≠ "" →
        specPublish st m (some v) = bindStore st k v)
    ∧ (∀ (st : List (String × V)) (m : MethodRec), specPublish st m none = st)
    ∧ (∀ (st : List (String × V)) (m : MethodRec) (v : V),
        m.bindsReturnValueAs = none → specPublish st m (some v) = st)
    ∧ (∀ (st : List (String × V)) (m : MethodRec) (v : V),
        m.bindsReturnValueAs = some "" → specPublish st m (some v) = st) := by
  refine ⟨runLoop_filter_eq_specExecutor, ?_, ?_, ?_, ?_, ?_⟩
  · intro ce resolve invokeM s st g s' hb
    unfold Sequence.run
    rw [hb]
    dsimp only
    rw [runLoop_filter_eq_specExecutor]
  · intro st m v k hk hne
    simp [specPublish, hk, hne]
  · intro st m
    cases m.bindsReturnValueAs <;> rfl
  · intro st m v hk
    simp [specPublish, hk]
  · intro st m v hk
    simp [specPublish, hk]

/-- C6 witness: the executor evaluated on a concrete two-action sequence (one
publishing action, one class node skipped), via the refinement theorem. -/
theorem sequence_run_spec_witness :
    runLoop (V := String) (E := String) (I := Unit)
        (fun _ _ => Except.ok ()) (fun _ mn st => Except.ok (some ("r:" ++ mn)))
        ⟨[⟨"g0", [], [], "m0", some "k0", none⟩], []⟩
        (([GNode.mth 0, GNode.clsMeta ⟨"C", "c", [], []⟩].filter
          (isMethodNode ⟨[⟨"g0", [], [], "m0", some "k0", none⟩], []⟩))) [] =
      (none, [("k0", "r:m0")]) := by
  have h := (sequence_run_spec (V := String) (E := String) (I := Unit)).1
    (fun _ _ => Except.ok ()) (fun _ mn st => Except.ok (some ("r:" ++ mn)))
    ⟨[⟨"g0", [], [], "m0", some "k0", none⟩], []⟩
    [GNode.mth 0, GNode.clsMeta ⟨"C", "c", [], []⟩] []
  rw [h]
  rfl

/-- C7. If an action's instance resolution or invocation fails during
`run()`'s loop, the error propagates unchanged, no action after the failing
one executes (the result does not depend on the remainder of the order), and
the store writes of already-executed actions are kept (no rollback) while the
failing action publishes nothing. -/
theorem run_error_propagation :
    ∀ (resolve : MethodRec → List (String × V) → Except E I)
      (invokeM : I → String → List (String × V) → Except E (Option V)) (h : Heap)
      (l1 l2 : List GNode) (i : Nat) (st st1 : List (String × V)) (e : E),
      runLoop resolve invokeM h l1 st = (none, st1) →
      (resolve (h.methodRecs.getD i default) st1 = Except.error e ∨
        (∃ inst, resolve (h.methodRecs.getD i default) st1 = Except.ok inst ∧
          invokeM inst (h.methodRecs.getD i default).method st1 = Except.error e)) →
      runLoop resolve invokeM h (l1 ++ GNode.mth i :: l2) st = (some e, st1) := by
  intro resolve invokeM h l1
  induction l1 with
  | nil =>
    intro l2 i st st1 e h1 h2
    simp only [runLoop, Prod.mk.injEq] at h1
    obtain ⟨-, rfl⟩ := h1
    simp only [List.nil_append, runLoop]
    rcases h2 with herr | ⟨inst, hok, herr⟩
    · rw [herr]
    · rw [hok]
      dsimp only
      rw [herr]
  | cons n l1 ih =>
    intro l2 i st st1 e h1 h2
    cases n with
    | mth j =>
      simp only [runLoop] at h1
      simp only [List.cons_append, runLoop]
      cases hres : resolve (h.methodRecs.getD j default) st with
      | error e' =>
        rw [hres] at h1
        dsimp only at h1
        exact absurd h1 (by simp)
      | ok inst =>
        rw [hres] at h1
        dsimp only at h1
        dsimp only
        cases hinv : invokeM inst (h.methodRecs.getD j default).method st with
        | error e' =>
          rw [hinv] at h1
          dsimp only at h1
          exact absurd h1 (by simp)
        | ok r =>
          rw [hinv] at h1
          dsimp only at h1
          dsimp only
          exact ih l2 i _ st1 e h1 h2
    | key k =>
      simp only [runLoop] at h1
      simp only [List.cons_append, runLoop]
      exact ih l2 i st st1 e h1 h2
    | clsMeta m =>
      simp only [runLoop] at h1
      simp only [List.cons_append, runLoop]
      exact ih l2 i st st1 e h1 h2
    | cls d =>
      simp only [runLoop] at h1
      simp only [List.cons_append, runLoop]
      exact ih l2 i st st1 e h1 h2

/-- C7 witness: a concrete run where the first action publishes `k0`, the
second action's invocation fails (a missing-binding lookup), and a third
action follows: the loop returns exactly the failure with the first action's
write retained and the third action never invoked. -/
theorem run_error_propagation_witness :
    runLoop (V := String) (E := String) (I := Unit)
        (fun _ _ => Except.ok ())
        (fun _ mn st => if mn = "bad" then Except.error "binding tracingId not found"
          else Except.ok (some "v"))
        ⟨[⟨"g0", [], [], "m0", some "k0", none⟩, ⟨"g1", [], [], "bad", some "k1", none⟩], []⟩
        ([GNode.mth 0] ++ GNode.mth 1 :: [GNode.mth 0]) [] =
      (some "binding tracingId not found", [("k0", "v")]) := by
  exact run_error_propagation (fun _ _ => Except.ok ())
    (fun _ mn st => if mn = "bad" then Except.error "binding tracingId not found"
      else Except.ok (some "v"))
    ⟨[⟨"g0", [], [], "m0", some "k0", none⟩, ⟨"g1", [], [], "bad", some "k1", none⟩], []⟩
    [GNode.mth 0] [GNode.mth 0] 1 [] [("k0", "v")] "binding tracingId not found"
    (by rfl) (Or.inr ⟨(), by rfl, by rfl⟩)

/-! ### Alignment: the sort depends only on groups and on membership in the
before/after lists

Between two calls to `sortActions`, the in-place `dependsOn` pushes leave
every item's constraint lists membership-equivalent (only duplicates are
appended), so the produced orders coincide.  `ItemAligned` captures that
equivalence and the lemmas below propagate it through the sequencer. -/

/-- Two items that the sequencer cannot distinguish: same group, and
before/after lists with the same members. -/
def ItemAligned (a b : TopoItem γ) : Prop :=
  a.group = b.group ∧ (∀ s, s ∈ a.before ↔ s ∈ b.before) ∧
  (∀ s, s ∈ a.after ↔ s ∈ b.after)

theorem itemAligned_refl (a : TopoItem γ) : ItemAligned a a :=
  ⟨rfl, fun s => Iff.rfl, fun s => Iff.rfl⟩

theorem forall₂_mem_right {α β : Type} {R : α → β → Prop} :
    ∀ {l : List α} {l' : List β}, List.Forall₂ R l l' → ∀ b ∈ l', ∃ a ∈ l, R a b := by
  intro l l' h
  induction h with
  | nil => intro b hb; simp at hb
  | cons hr ht ih =>
    intro b hb
    rcases List.mem_cons.mp hb with rfl | hb
    · exact ⟨_, List.mem_cons_self _ _, hr⟩
    · obtain ⟨a, ha, har⟩ := ih b hb
      exact ⟨a, List.mem_cons_of_mem _ ha, har⟩

theorem forall₂_mem_left {α β : Type} {R : α → β → Prop} :
    ∀ {l : List α} {l' : List β}, List.Forall₂ R l l' → ∀ a ∈ l, ∃ b ∈ l', R a b := by
  intro l l' h
  induction h with
  | nil => intro a ha; simp at ha
  | cons hr ht ih =>
    intro a ha
    rcases List.mem_cons.mp ha with rfl | ha
    · exact ⟨_, List.mem_cons_self _ _, hr⟩
    · obtain ⟨b, hb, hbr⟩ := ih a ha
      exact ⟨b, List.mem_cons_of_mem _ hb, hbr⟩

theorem mustPrecede_aligned {a a' b b' : TopoItem γ}
    (ha : ItemAligned a a') (hb : ItemAligned b b') :
    MustPrecede a b ↔ MustPrecede a' b' := by
  unfold MustPrecede
  constructor
  · rintro (h | h)
    · left
      rw [← hb.1]
      exact (ha.2.1 b.group).mp h
    · right
      rw [← ha.1]
      exact (hb.2.2 a.group).mp h
  · rintro (h | h)
    · left
      rw [hb.1]
      exact (ha.2.1 b'.group).mpr h
    · right
      rw [ha.1]
      exact (hb.2.2 a'.group).mpr h

theorem ready_aligned {pending pending' : List (TopoItem γ)} {b b' : TopoItem γ}
    (hp : List.Forall₂ ItemAligned pending pending') (hb : ItemAligned b b') :
    Ready pending b ↔ Ready pending' b' := by
  unfold Ready
  constructor
  · intro h a' ha'
    obtain ⟨a, ha, har⟩ := forall₂_mem_right hp a' ha'
    exact fun hM => h a ha ((mustPrecede_aligned har hb).mpr hM)
  · intro h a ha
    obtain ⟨a', ha', har⟩ := forall₂_mem_left hp a ha
    exact fun hM => h a' ha' ((mustPrecede_aligned har hb).mp hM)

theorem extractReady_aligned {all all' : List (TopoItem γ)}
    (hall : List.Forall₂ ItemAligned all all') :
    ∀ {l l' : List (TopoItem γ)}, List.Forall₂ ItemAligned l l' →
      (extractReady all l = none ∧ extractReady all' l' = none) ∨
      (∃ b rest b' rest', extractReady all l = some (b, rest) ∧
        extractReady all' l' = some (b', rest') ∧
        ItemAligned b b' ∧ List.Forall₂ ItemAligned rest rest') := by
  intro l l' hl
  induction hl with
  | nil => exact Or.inl ⟨rfl, rfl⟩
  | cons hr ht ih =>
    rename_i a a' t t'
    by_cases hready : Ready all a
    · right
      have hready' : Ready all' a' := (ready_aligned hall hr).mp hready
      exact ⟨a, t, a', t', by simp [extractReady, if_pos hready],
        by simp [extractReady, if_pos hready'], hr, ht⟩
    · have hready' : ¬ Ready all' a' := fun h => hready ((ready_aligned hall hr).mpr h)
      rcases ih with ⟨h1, h2⟩ | ⟨c, rest, c', rest', h1, h2, hcr, hrr⟩
      · left
        constructor
        · simp [extractReady, if_neg hready, h1]
        · simp [extractReady, if_neg hready', h2]
      · right
        refine ⟨c, a :: rest, c', a' :: rest', ?_, ?_, hcr, List.Forall₂.cons hr hrr⟩
        · simp [extractReady, if_neg hready, h1]
        · simp [extractReady, if_neg hready', h2]

theorem sortLoop_aligned :
    ∀ (n : Nat) {pending pending' : List (TopoItem γ)},
      List.Forall₂ ItemAligned pending pending' →
      (sortLoop n pending = none ∧ sortLoop n pending' = none) ∨
      (∃ s s', sortLoop n pending = some s ∧ sortLoop n pending' = some s' ∧
        List.Forall₂ ItemAligned s s') := by
  intro n
  induction n with
  | zero =>
    intro pending pending' hp
    cases hp with
    | nil => exact Or.inr ⟨[], [], rfl, rfl, List.Forall₂.nil⟩
    | cons hr ht => exact Or.inl ⟨rfl, rfl⟩
  | succ n ih =>
    intro pending pending' hp
    cases hp with
    | nil => exact Or.inr ⟨[], [], rfl, rfl, List.Forall₂.nil⟩
    | cons hr ht =>
      rename_i a a' t t'
      have hall : List.Forall₂ ItemAligned (a :: t) (a' :: t') := List.Forall₂.cons hr ht
      rcases extractReady_aligned hall hall with ⟨h1, h2⟩ |
        ⟨b, rest, b', rest', h1, h2, hbr, hrr⟩
      · exact Or.inl ⟨by simp [sortLoop, h1], by simp [sortLoop, h2]⟩
      · rcases ih hrr with ⟨hs1, hs2⟩ | ⟨s, s', hs1, hs2, hss⟩
        · exact Or.inl ⟨by simp [sortLoop, h1, hs1], by simp [sortLoop, h2, hs2]⟩
        · exact Or.inr ⟨b :: s, b' :: s', by simp [sortLoop, h1, hs1],
            by simp [sortLoop, h2, hs2], List.Forall₂.cons hbr hss⟩

theorem topoSort_aligned {items items' : List (TopoItem γ)}
    (h : List.Forall₂ ItemAligned items items') :
    (topoSort items = none ∧ topoSort items' = none) ∨
    (∃ s s', topoSort items = some s ∧ topoSort items' = some s' ∧
      List.Forall₂ ItemAligned s s') := by
  have hlen := List.Forall₂.length_eq h
  unfold topoSort
  rw [← hlen]
  exact sortLoop_aligned items.length h

theorem forall₂_aligned_map_group {l l' : List (TopoItem γ)}
    (h : List.Forall₂ ItemAligned l l') :
    l.map (fun it => it.group) = l'.map (fun it => it.group) := by
  induction h with
  | nil => rfl
  | cons hr ht ih => simp [hr.1, ih]

theorem forall₂_aligned_append {l₁ l₂ u₁ u₂ : List (TopoItem γ)}
    (h : List.Forall₂ ItemAligned l₁ l₂) (h' : List.Forall₂ ItemAligned u₁ u₂) :
    List.Forall₂ ItemAligned (l₁ ++ u₁) (l₂ ++ u₂) := by
  induction h with
  | nil => exact h'
  | cons hr ht ih => exact List.Forall₂.cons hr ih

theorem TopoGraph.add_aligned {g₁ g₂ : TopoGraph γ}
    (h : List.Forall₂ ItemAligned g₁.items g₂.items)
    (nd₁ nd₂ : γ) (grp : String) (bef₁ bef₂ aft₁ aft₂ : List String)
    (hbef : ∀ s, s ∈ bef₁ ↔ s ∈ bef₂) (haft : ∀ s, s ∈ aft₁ ↔ s ∈ aft₂) :
    (g₁.add nd₁ grp bef₁ aft₁ = none ∧ g₂.add nd₂ grp bef₂ aft₂ = none) ∨
    (∃ g₁' g₂', g₁.add nd₁ grp bef₁ aft₁ = some g₁' ∧ g₂.add nd₂ grp bef₂ aft₂ = some g₂' ∧
      List.Forall₂ ItemAligned g₁'.items g₂'.items) := by
  have hnew : ItemAligned
      (⟨g₁.items.length, bef₁, aft₁, grp, nd₁⟩ : TopoItem γ)
      (⟨g₂.items.length, bef₂, aft₂, grp, nd₂⟩ : TopoItem γ) := ⟨rfl, hbef, haft⟩
  have happ : List.Forall₂ ItemAligned
      (g₁.items ++ [⟨g₁.items.length, bef₁, aft₁, grp, nd₁⟩])
      (g₂.items ++ [⟨g₂.items.length, bef₂, aft₂, grp, nd₂⟩]) :=
    forall₂_aligned_append h (List.Forall₂.cons hnew List.Forall₂.nil)
  rcases topoSort_aligned happ with ⟨h1, h2⟩ | ⟨s, s', h1, h2, hss⟩
  · left
    constructor
    · unfold TopoGraph.add
      dsimp only
      rw [h1]
    · unfold TopoGraph.add
      dsimp only
      rw [h2]
  · right
    refine ⟨⟨_⟩, ⟨_⟩, ?_, ?_, happ⟩
    · unfold TopoGraph.add
      dsimp only
      rw [h1]
    · unfold TopoGraph.add
      dsimp only
      rw [h2]

theorem groupExists_eq_of_aligned {g₁ g₂ : TopoGraph γ}
    (h : List.Forall₂ ItemAligned g₁.items g₂.items) (k : String) :
    g₁.groupExists k = g₂.groupExists k := by
  have hmap := forall₂_aligned_map_group h
  cases h1 : g₁.groupExists k with
  | true =>
    have := (groupExists_iff g₁ k).mp h1
    exact ((groupExists_iff g₂ k).mpr (hmap ▸ this)).symm
  | false =>
    cases h2 : g₂.groupExists k with
    | false => rfl
    | true =>
      have := (groupExists_iff g₂ k).mp h2
      exact absurd ((groupExists_iff g₁ k).mpr (hmap ▸ this)) (by simp [h1])

theorem keyItemsFrom_map_group (base : Nat) (ks : List String) :
    (keyItemsFrom base ks).map (fun it => it.group) = ks := by
  induction ks generalizing base with
  | nil => rfl
  | cons k ks ih => simp [keyItemsFrom, ih]

/-- The group names present after a successful key-adding fold include every
key of the processed list. -/
theorem addKey_fold_groupExists :
    ∀ (ks : List String) (g g' : TopoGraph GNode),
      ks.foldl addKeyStep (some g) = some g' →
      ∀ k ∈ ks, g'.groupExists k = true := by
  intro ks g g' h k hk
  have hspec := addKey_fold_spec ks g g' h
  rw [groupExists_iff, hspec]
  simp only [List.map_append, List.mem_append]
  by_cases hex : k ∈ g.items.map (fun it => it.group)
  · exact Or.inl hex
  · right
    rw [keyItemsFrom_map_group]
    exact mem_newKeyGroups.mpr ⟨hk, hex⟩

/-- Keys already present are skipped by the key-adding fold. -/
theorem addKey_fold_skip :
    ∀ (extra : List String) (g : TopoGraph GNode),
      (∀ s ∈ extra, g.groupExists s = true) →
      extra.foldl addKeyStep (some g) = some g := by
  intro extra
  induction extra with
  | nil => intro g h; rfl
  | cons s extra ih =>
    intro g h
    rw [List.foldl_cons]
    simp only [addKeyStep]
    rw [if_pos (h s (List.mem_cons_self s extra))]
    exact ih g (fun x hx => h x (List.mem_cons_of_mem s hx))

/-- The key-adding fold preserves alignment when both sides process the same
key list. -/
theorem addKey_fold_aligned :
    ∀ (ks : List String) (g₁ g₂ : TopoGraph GNode),
      List.Forall₂ ItemAligned g₁.items g₂.items →
      (ks.foldl addKeyStep (some g₁) = none ∧ ks.foldl addKeyStep (some g₂) = none) ∨
      (∃ g₁' g₂', ks.foldl addKeyStep (some g₁) = some g₁' ∧
        ks.foldl addKeyStep (some g₂) = some g₂' ∧
        List.Forall₂ ItemAligned g₁'.items g₂'.items) := by
  intro ks
  induction ks with
  | nil => intro g₁ g₂ h; exact Or.inr ⟨g₁, g₂, rfl, rfl, h⟩
  | cons k ks ih =>
    intro g₁ g₂ h
    rw [List.foldl_cons, List.foldl_cons]
    simp only [addKeyStep]
    have hex := groupExists_eq_of_aligned h k
    by_cases h1 : g₁.groupExists k = true
    · rw [if_pos h1, if_pos (hex ▸ h1)]
      exact ih g₁ g₂ h
    · rw [if_neg h1, if_neg (fun hc => h1 (hex ▸ hc))]
      rcases TopoGraph.add_aligned h (GNode.key k) (GNode.key k) k [] [] [] []
          (fun s => Iff.rfl) (fun s => Iff.rfl) with
        ⟨ha1, ha2⟩ | ⟨g₁', g₂', ha1, ha2, hal⟩
      · refine Or.inl ⟨?_, ?_⟩
        · rw [ha1]; exact addKey_fold_none ks
        · rw [ha2]; exact addKey_fold_none ks
      · rw [ha1, ha2]
        exact ih g₁' g₂' hal

/-- `addActionToGraph` preserves alignment when the second side's `dependsOn`
list extends the first side's by entries it already contains (the shape the
in-place pushes of a repeated `sortActions` call produce). -/
theorem addActionToGraph_aligned {g₁ g₂ : TopoGraph GNode}
    (h : List.Forall₂ ItemAligned g₁.items g₂.items)
    (grp : String) (F D₁ extra : List String) (p₁ p₂ : GNode)
    (hsub : ∀ s ∈ extra, s ∈ D₁) :
    (addActionToGraph g₁ grp F D₁ p₁ = none ∧
      addActionToGraph g₂ grp F (D₁ ++ extra) p₂ = none) ∨
    (∃ g₁' g₂', addActionToGraph g₁ grp F D₁ p₁ = some g₁' ∧
      addActionToGraph g₂ grp F (D₁ ++ extra) p₂ = some g₂' ∧
      List.Forall₂ ItemAligned g₁'.items g₂'.items) := by
  unfold addActionToGraph
  have hsplit : List.foldl addKeyStep (some g₂) (F ++ (D₁ ++ extra)) =
      List.foldl addKeyStep (List.foldl addKeyStep (some g₂) (F ++ D₁)) extra := by
    rw [← List.foldl_append, List.append_assoc]
  rw [hsplit]
  rcases addKey_fold_aligned (F ++ D₁) g₁ g₂ h with ⟨h1, h2⟩ | ⟨g₁', g₂', h1, h2, hal⟩
  · rw [h1, h2, addKey_fold_none]
    exact Or.inl ⟨rfl, rfl⟩
  · rw [h1, h2]
    have hskip : extra.foldl addKeyStep (some g₂') = some g₂' := by
      refine addKey_fold_skip extra g₂' (fun s hs => ?_)
      exact addKey_fold_groupExists (F ++ D₁) g₂ g₂' h2 s
        (List.mem_append.mpr (Or.inr (hsub s hs)))
    rw [hskip]
    have haft : ∀ s, s ∈ D₁ ↔ s ∈ D₁ ++ extra := by
      intro s
      constructor
      · intro hs; exact List.mem_append.mpr (Or.inl hs)
      · intro hs
        rcases List.mem_append.mp hs with hs | hs
        · exact hs
        · exact hsub s hs
    rcases TopoGraph.add_aligned hal p₁ p₂ grp F F D₁ (D₁ ++ extra)
        (fun s => Iff.rfl) haft with ⟨ha1, ha2⟩ | ⟨ga₁, ga₂, ha1, ha2, hga⟩
    · exact Or.inl ⟨ha1, ha2⟩
    · exact Or.inr ⟨ga₁, ga₂, ha1, ha2, hga⟩

/-! ### Between two `sortActions` calls: the refined heap frame

The first call leaves each registered method record unchanged except for
duplicate pushes of its own class's group onto `dependsOn` (and the
back-reference stamp), provided every record belongs to exactly one class. -/

/-- All method record indices referenced by a class list, in order. -/
def classIds (classes : List ActionClassReg) : List Nat :=
  classes.bind (fun c => c.methods.map (fun nm => nm.2))

theorem getD_of_get? {α : Type} :
    ∀ {l : List α} {i : Nat} {r : α} (d : α), l.get? i = some r → l.getD i d = r := by
  intro l
  induction l with
  | nil => intro i r d h; simp at h
  | cons a t ih =>
    intro i r d h
    cases i with
    | zero =>
      simp only [List.get?] at h
      cases h
      rfl
    | succ i => exact ih d h

theorem pushDependsOn_get?_eq (h : Heap) (i : Nat) (grp : String) {r : MethodRec}
    (hr : h.methodRecs.get? i = some r) :
    (pushDependsOn h i grp).methodRecs.get? i =
      some { r with dependsOn := r.dependsOn ++ [grp] } := by
  unfold pushDependsOn
  rw [modifyIdx_get?_eq, hr]
  rfl

theorem pushDependsOn_get?_ne (h : Heap) (i j : Nat) (grp : String) (hne : j ≠ i) :
    (pushDependsOn h i grp).methodRecs.get? j = h.methodRecs.get? j := by
  unfold pushDependsOn
  exact modifyIdx_get?_ne _ j i _ hne

/-- Frame of the inner method loop: indices outside the processed list keep
their records; each processed index gains only duplicate pushes of the class
group (none when classes are excluded, and none after an aborting add). -/
theorem sortMethodsLoop_frame (ic : Bool) (grp : String) :
    ∀ (ms : List (String × Nat)) (g : TopoGraph GNode) (h : Heap),
      (ms.map (fun nm => nm.2)).Nodup →
      (∀ j, j ∉ ms.map (fun nm => nm.2) →
        (sortMethodsLoop ic grp ms g h).2.methodRecs.get? j = h.methodRecs.get? j)
      ∧ (∀ nm ∈ ms, ∀ r, h.methodRecs.get? nm.2 = some r →
          ∃ k, (sortMethodsLoop ic grp ms g h).2.methodRecs.get? nm.2 =
            some { r with dependsOn := r.dependsOn ++ List.replicate k grp } ∧
            (ic = false → k = 0)) := by
  intro ms
  induction ms with
  | nil =>
    intro g h hnd
    refine ⟨fun j hj => rfl, fun nm hnm => ?_⟩
    simp at hnm
  | cons nm₀ ms ih =>
    intro g h hnd
    obtain ⟨mn, i⟩ := nm₀
    have hnd' : (ms.map (fun nm => nm.2)).Nodup := (List.nodup_cons.mp (by simpa using hnd)).2
    have hinotin : i ∉ ms.map (fun nm => nm.2) := (List.nodup_cons.mp (by simpa using hnd)).1
    simp only [sortMethodsLoop]
    have hpush_ne : ∀ j, j ≠ i →
        (if ic then pushDependsOn h i grp else h).methodRecs.get? j = h.methodRecs.get? j := by
      intro j hj
      by_cases hic : ic
      · rw [if_pos hic]; exact pushDependsOn_get?_ne h i j grp hj
      · rw [if_neg hic]
    have hpush_eq : ∀ r, h.methodRecs.get? i = some r →
        ∃ k, (if ic then pushDependsOn h i grp else h).methodRecs.get? i =
          some { r with dependsOn := r.dependsOn ++ List.replicate k grp } ∧
          (ic = false → k = 0) := by
      intro r hr
      by_cases hic : ic
      · refine ⟨1, ?_, by simp [hic]⟩
        rw [if_pos hic, pushDependsOn_get?_eq h i grp hr]
        rfl
      · refine ⟨0, ?_, fun _ => rfl⟩
        rw [if_neg hic, hr]
        simp
    split
    · rename_i hadd
      constructor
      · intro j hj
        have hji : j ≠ i := by
          intro hE; exact hj (by simp [hE])
        exact hpush_ne j hji
      · intro nm hnm r hr
        rcases List.mem_cons.mp hnm with rfl | hnm

        · exact hpush_eq r hr
        · have hne : nm.2 ≠ i := by
            intro hE
            exact hinotin (hE ▸ List.mem_map.mpr ⟨nm, hnm, rfl⟩)
          refine ⟨0, ?_, fun _ => rfl⟩
          rw [hpush_ne nm.2 hne, hr]
          simp
    · rename_i g' hadd
      obtain ⟨iha, ihb⟩ := ih g' (if ic then pushDependsOn h i grp else h) hnd'
      constructor
      · intro j hj
        have hji : j ≠ i := by
          intro hE; exact hj (by simp [hE])
        have hjm : j ∉ ms.map (fun nm => nm.2) := by
          intro hc; exact hj (by simp [hc])
        rw [iha j hjm]
        exact hpush_ne j hji
      · intro nm hnm r hr
        rcases List.mem_cons.mp hnm with rfl | hnm
        · obtain ⟨k, hk, hk0⟩ := hpush_eq r hr
          refine ⟨k, ?_, hk0⟩
          rw [iha i (by simpa using hinotin)]
          exact hk
        · have hne : nm.2 ≠ i := by
            intro hE
            exact hinotin (hE ▸ List.mem_map.mpr ⟨nm, hnm, rfl⟩)
          exact ihb nm hnm r (by rw [hpush_ne nm.2 hne]; exact hr)

theorem inspectAction_get?_form (reg : ActionClassReg) (h : Heap) (i : Nat) {r : MethodRec}
    (hr : h.methodRecs.get? i = some r) :
    ∃ ac, (inspectAction reg h).2.methodRecs.get? i =
      some { r with actionClass := ac } := by
  rw [inspectAction_methodRecs_get?]
  by_cases hi : i ∈ reg.methods.map (fun nm => nm.2)
  · rw [if_pos hi, hr]
    exact ⟨some h.descriptors.length, rfl⟩
  · rw [if_neg hi, hr]
    exact ⟨r.actionClass, rfl⟩

theorem inspectAction_get?_ne (reg : ActionClassReg) (h : Heap) (i : Nat)
    (hi : i ∉ reg.methods.map (fun nm => nm.2)) :
    (inspectAction reg h).2.methodRecs.get? i = h.methodRecs.get? i := by
  rw [inspectAction_methodRecs_get?, if_neg hi]

/-- Frame of the class loop: indices not referenced by any class keep their
records entirely; each referenced record changes only by duplicate pushes of
its own class's group and the back-reference stamp. -/
theorem sortClassesLoop_frame (ic : Bool) :
    ∀ (classes : List ActionClassReg) (g : TopoGraph GNode) (h : Heap),
      (classIds classes).Nodup →
      (∀ j, j ∉ classIds classes →
        (sortClassesLoop ic classes g h).2.methodRecs.get? j = h.methodRecs.get? j)
      ∧ (∀ c ∈ classes, ∀ nm ∈ c.methods, ∀ r, h.methodRecs.get? nm.2 = some r →
          ∃ k ac, (sortClassesLoop ic classes g h).2.methodRecs.get? nm.2 =
            some { r with
              dependsOn := r.dependsOn ++ List.replicate k c.meta.group,
              actionClass := ac } ∧
            (ic = false → k = 0)) := by
  intro classes
  induction classes with
  | nil =>
    intro g h hnd
    refine ⟨fun j hj => rfl, fun c hc => ?_⟩
    simp at hc
  | cons c cs ih =>
    intro g h hnd
    have hsplit : classIds (c :: cs) = c.methods.map (fun nm => nm.2) ++ classIds cs := by
      simp [classIds, List.cons_bind]
    rw [hsplit] at hnd
    obtain ⟨hndc, hndcs, hdisj⟩ := List.nodup_append.mp hnd
    simp only [sortClassesLoop]
    split
    · rename_i hag
      constructor
      · intro j hj
        rw [hsplit] at hj
        exact inspectAction_get?_ne c h j (fun hc => hj (List.mem_append.mpr (Or.inl hc)))
      · intro c' hc' nm hnm r hr
        rcases List.mem_cons.mp hc' with rfl | hc'
        · obtain ⟨ac, hac⟩ := inspectAction_get?_form c' h nm.2 hr
          exact ⟨0, ac, by rw [hac]; simp, fun _ => rfl⟩
        · have hni : nm.2 ∉ c.methods.map (fun nm => nm.2) := by
            intro hmem
            exact hdisj hmem (by
              simp only [classIds, List.mem_bind]
              exact ⟨c', hc', List.mem_map.mpr ⟨nm, hnm, rfl⟩⟩)
          refine ⟨0, r.actionClass, ?_, fun _ => rfl⟩
          rw [inspectAction_get?_ne c h nm.2 hni, hr]
          simp
    · rename_i g₁ hag
      obtain ⟨ima, imb⟩ := sortMethodsLoop_frame ic c.meta.group c.methods g₁
        (inspectAction c h).2 hndc
      split
      · rename_i h₂ hm
        have hma : ∀ j, j ∉ c.methods.map (fun nm => nm.2) →
            h₂.methodRecs.get? j = (inspectAction c h).2.methodRecs.get? j := by
          intro j hj
          have := ima j hj
          rw [hm] at this
          exact this
        have hmb : ∀ nm ∈ c.methods, ∀ r,
            (inspectAction c h).2.methodRecs.get? nm.2 = some r →
            ∃ k, h₂.methodRecs.get? nm.2 =
              some { r with dependsOn := r.dependsOn ++ List.replicate k c.meta.group } ∧
              (ic = false → k = 0) := by
          intro nm hnm r hr
          have := imb nm hnm r hr
          rw [hm] at this
          exact this
        constructor
        · intro j hj
          rw [hsplit] at hj
          rw [hma j (fun hc => hj (List.mem_append.mpr (Or.inl hc)))]
          exact inspectAction_get?_ne c h j (fun hc => hj (List.mem_append.mpr (Or.inl hc)))
        · intro c' hc' nm hnm r hr
          rcases List.mem_cons.mp hc' with rfl | hc'
          · obtain ⟨ac, hac⟩ := inspectAction_get?_form c' h nm.2 hr
            obtain ⟨k, hk, hk0⟩ := hmb nm hnm _ hac
            exact ⟨k, ac, hk, hk0⟩
          · have hni : nm.2 ∉ c.methods.map (fun nm => nm.2) := by
              intro hmem
              exact hdisj hmem (by
                simp only [classIds, List.mem_bind]
                exact ⟨c', hc', List.mem_map.mpr ⟨nm, hnm, rfl⟩⟩)
            refine ⟨0, r.actionClass, ?_, fun _ => rfl⟩
            rw [hma nm.2 hni, inspectAction_get?_ne c h nm.2 hni, hr]
            simp
      · rename_i g₂ h₂ hm
        have hma : ∀ j, j ∉ c.methods.map (fun nm => nm.2) →
            h₂.methodRecs.get? j = (inspectAction c h).2.methodRecs.get? j := by
          intro j hj
          have := ima j hj
          rw [hm] at this
          exact this
        have hmb : ∀ nm ∈ c.methods, ∀ r,
            (inspectAction c h).2.methodRecs.get? nm.2 = some r →
            ∃ k, h₂.methodRecs.get? nm.2 =
              some { r with dependsOn := r.dependsOn ++ List.replicate k c.meta.group } ∧
              (ic = false → k = 0) := by
          intro nm hnm r hr
          have := imb nm hnm r hr
          rw [hm] at this
          exact this
        obtain ⟨iha, ihb⟩ := ih g₂ h₂ hndcs
        constructor
        · intro j hj
          rw [hsplit] at hj
          rw [iha j (fun hc => hj (List.mem_append.mpr (Or.inr hc))),
            hma j (fun hc => hj (List.mem_append.mpr (Or.inl hc)))]
          exact inspectAction_get?_ne c h j (fun hc => hj (List.mem_append.mpr (Or.inl hc)))
        · intro c' hc' nm hnm r hr
          rcases List.mem_cons.mp hc' with rfl | hc'
          · have hnotin : nm.2 ∉ classIds cs := by
              intro hmem
              exact hdisj (List.mem_map.mpr ⟨nm, hnm, rfl⟩) hmem
            obtain ⟨ac, hac⟩ := inspectAction_get?_form c' h nm.2 hr
            obtain ⟨k, hk, hk0⟩ := hmb nm hnm _ hac
            refine ⟨k, ac, ?_, hk0⟩
            rw [iha nm.2 hnotin]
            exact hk
          · have hni : nm.2 ∉ c.methods.map (fun nm => nm.2) := by
              intro hmem
              exact hdisj hmem (by
                simp only [classIds, List.mem_bind]
                exact ⟨c', hc', List.mem_map.mpr ⟨nm, hnm, rfl⟩⟩)
            refine ihb c' hc' nm hnm r ?_
            rw [hma nm.2 hni, inspectAction_get?_ne c h nm.2 hni]
            exact hr

/-- How a registry record seen by one `sortActions` call relates to the same
record at the start of the next call: identical group and fulfills, and a
`dependsOn` extended only by duplicate pushes of the owning class's group
(none at all when classes are not included). -/
def RecEvolved (ic : Bool) (grp : String) (r₁ r₂ : MethodRec) : Prop :=
  r₂.group = r₁.group ∧ r₂.fulfills = r₁.fulfills ∧
  ∃ k, r₂.dependsOn = r₁.dependsOn ++ List.replicate k grp ∧ (ic = false → k = 0)

theorem recEvolved_actionClass {ic : Bool} {grp : String} {r₁ r₂ : MethodRec}
    (h : RecEvolved ic grp r₁ r₂) (a b : Option Nat) :
    RecEvolved ic grp { r₁ with actionClass := a } { r₂ with actionClass := b } := h

/-- Lockstep simulation of the inner method loop of two consecutive
`sortActions` calls. -/
theorem sortMethodsLoop_sim (ic : Bool) (grp : String) :
    ∀ (ms : List (String × Nat)) (g₁ g₂ : TopoGraph GNode) (h₁ h₂ : Heap),
      List.Forall₂ ItemAligned g₁.items g₂.items →
      (ms.map (fun nm => nm.2)).Nodup →
      (∀ nm ∈ ms, ∃ r₁ r₂, h₁.methodRecs.get? nm.2 = some r₁ ∧
        h₂.methodRecs.get? nm.2 = some r₂ ∧ RecEvolved ic grp r₁ r₂) →
      (((sortMethodsLoop ic grp ms g₁ h₁).1 = none ∧
          (sortMethodsLoop ic grp ms g₂ h₂).1 = none) ∨
        (∃ g₁' g₂', (sortMethodsLoop ic grp ms g₁ h₁).1 = some g₁' ∧
          (sortMethodsLoop ic grp ms g₂ h₂).1 = some g₂' ∧
          List.Forall₂ ItemAligned g₁'.items g₂'.items))
      ∧ (∀ j, j ∉ ms.map (fun nm => nm.2) →
          (sortMethodsLoop ic grp ms g₁ h₁).2.methodRecs.get? j = h₁.methodRecs.get? j ∧
          (sortMethodsLoop ic grp ms g₂ h₂).2.methodRecs.get? j = h₂.methodRecs.get? j) := by
  intro ms
  induction ms with
  | nil =>
    intro g₁ g₂ h₁ h₂ hal hnd hrecs
    exact ⟨Or.inr ⟨g₁, g₂, rfl, rfl, hal⟩, fun j hj => ⟨rfl, rfl⟩⟩
  | cons nm₀ ms ih =>
    intro g₁ g₂ h₁ h₂ hal hnd hrecs
    obtain ⟨mn, i⟩ := nm₀
    obtain ⟨r₁, r₂, hr₁, hr₂, hgrp, hful, k, hdep, hk0⟩ :=
      hrecs (mn, i) (List.mem_cons_self _ _)
    have hnd' : (ms.map (fun nm => nm.2)).Nodup := (List.nodup_cons.mp (by simpa using hnd)).2
    have hinotin : i ∉ ms.map (fun nm => nm.2) := (List.nodup_cons.mp (by simpa using hnd)).1
    -- the records after the optional in-place push
    have hn₁ : (if ic then pushDependsOn h₁ i grp else h₁).methodRecs.get? i =
        some { r₁ with dependsOn := r₁.dependsOn ++ (if ic then [grp] else []) } := by
      by_cases hic : ic
      · rw [if_pos hic, pushDependsOn_get?_eq h₁ i grp hr₁, if_pos hic]
      · rw [if_neg hic, if_neg hic, hr₁]
        simp
    have hn₂ : (if ic then pushDependsOn h₂ i grp else h₂).methodRecs.get? i =
        some { r₂ with dependsOn := r₂.dependsOn ++ (if ic then [grp] else []) } := by
      by_cases hic : ic
      · rw [if_pos hic, pushDependsOn_get?_eq h₂ i grp hr₂, if_pos hic]
      · rw [if_neg hic, if_neg hic, hr₂]
        simp
    have hpush_ne₁ : ∀ j, j ≠ i →
        (if ic then pushDependsOn h₁ i grp else h₁).methodRecs.get? j =
          h₁.methodRecs.get? j := by
      intro j hj
      by_cases hic : ic
      · rw [if_pos hic]; exact pushDependsOn_get?_ne h₁ i j grp hj
      · rw [if_neg hic]
    have hpush_ne₂ : ∀ j, j ≠ i →
        (if ic then pushDependsOn h₂ i grp else h₂).methodRecs.get? j =
          h₂.methodRecs.get? j := by
      intro j hj
      by_cases hic : ic
      · rw [if_pos hic]; exact pushDependsOn_get?_ne h₂ i j grp hj
      · rw [if_neg hic]
    -- the pushed dependsOn lists are the first call's list plus duplicates
    have hdep₂ : r₂.dependsOn ++ (if ic then [grp] else []) =
        (r₁.dependsOn ++ (if ic then [grp] else [])) ++ List.replicate k grp := by
      rw [hdep]
      by_cases hic : ic
      · simp only [if_pos hic]
        rw [List.append_assoc, List.append_assoc]
        congr 1
        rw [List.singleton_append, ← List.replicate_succ, ← List.replicate_succ']
      · simp only [if_neg hic]
        rw [hk0 (by simpa using hic)]
        simp
    have hsub : ∀ s ∈ List.replicate k grp,
        s ∈ r₁.dependsOn ++ (if ic then [grp] else []) := by
      intro s hs
      have hse := List.eq_of_mem_replicate hs
      subst hse
      by_cases hic : ic
      · simp [if_pos hic]
      · exfalso
        rw [hk0 (by simpa using hic)] at hs
        simp at hs
    simp only [sortMethodsLoop]
    rw [getD_of_get? default hn₁, getD_of_get? default hn₂]
    rcases addActionToGraph_aligned hal r₁.group
        (r₁.fulfills) (r₁.dependsOn ++ (if ic then [grp] else [])) (List.replicate k grp)
        (GNode.mth i) (GNode.mth i) hsub with ⟨ha₁, ha₂⟩ | ⟨gg₁, gg₂, ha₁, ha₂, hgg⟩
    · -- both adds fail: both loops stop with no order
      rw [show ({ r₁ with dependsOn := r₁.dependsOn ++ (if ic then [grp] else []) } :
          MethodRec).group = r₁.group from rfl]
      rw [show ({ r₂ with dependsOn := r₂.dependsOn ++ (if ic then [grp] else []) } :
          MethodRec).group = r₂.group from rfl]
      rw [hgrp, hful]
      have hd2 : ({ r₂ with dependsOn := r₂.dependsOn ++ (if ic then [grp] else []) } :
          MethodRec).dependsOn =
          (r₁.dependsOn ++ (if ic then [grp] else [])) ++ List.replicate k grp := hdep₂
      rw [show ({ r₂ with dependsOn := r₂.dependsOn ++ (if ic then [grp] else []) } :
          MethodRec).dependsOn = r₂.dependsOn ++ (if ic then [grp] else []) from rfl, hdep₂]
      rw [ha₁, ha₂]
      refine ⟨Or.inl ⟨rfl, rfl⟩, fun j hj => ?_⟩
      have hji : j ≠ i := fun hE => hj (by simp [hE])
      exact ⟨hpush_ne₁ j hji, hpush_ne₂ j hji⟩
    · rw [show ({ r₁ with dependsOn := r₁.dependsOn ++ (if ic then [grp] else []) } :
          MethodRec).group = r₁.group from rfl]
      rw [show ({ r₂ with dependsOn := r₂.dependsOn ++ (if ic then [grp] else []) } :
          MethodRec).group = r₂.group from rfl]
      rw [hgrp, hful]
      rw [show ({ r₂ with dependsOn := r₂.dependsOn ++ (if ic then [grp] else []) } :
          MethodRec).dependsOn = r₂.dependsOn ++ (if ic then [grp] else []) from rfl, hdep₂]
      rw [ha₁, ha₂]
      have hrecs' : ∀ nm ∈ ms, ∃ r₁ r₂,
          (if ic then pushDependsOn h₁ i grp else h₁).methodRecs.get? nm.2 = some r₁ ∧
          (if ic then pushDependsOn h₂ i grp else h₂).methodRecs.get? nm.2 = some r₂ ∧
          RecEvolved ic grp r₁ r₂ := by
        intro nm hnm
        have hne : nm.2 ≠ i := fun hE =>
          hinotin (hE ▸ List.mem_map.mpr ⟨nm, hnm, rfl⟩)
        obtain ⟨s₁, s₂, hs₁, hs₂, hse⟩ := hrecs nm (List.mem_cons_of_mem _ hnm)
        exact ⟨s₁, s₂, by rw [hpush_ne₁ nm.2 hne]; exact hs₁,
          by rw [hpush_ne₂ nm.2 hne]; exact hs₂, hse⟩
      obtain ⟨ihres, ihframe⟩ := ih gg₁ gg₂ _ _ hgg hnd' hrecs'
      refine ⟨ihres, fun j hj => ?_⟩
      have hji : j ≠ i := fun hE => hj (by simp [hE])
      have hjm : j ∉ ms.map (fun nm => nm.2) := fun hc => hj (by simp [hc])
      obtain ⟨hf₁, hf₂⟩ := ihframe j hjm
      exact ⟨hf₁.trans (hpush_ne₁ j hji), hf₂.trans (hpush_ne₂ j hji)⟩

/-- Lockstep simulation of the class loop of two consecutive `sortActions`
calls: when every referenced record index is distinct and each record has
evolved only by duplicate group pushes since the first call, the two loops
fail together or produce constraint-aligned graphs. -/
theorem sortClassesLoop_sim (ic : Bool) :
    ∀ (classes : List ActionClassReg) (g₁ g₂ : TopoGraph GNode) (h₁ h₂ : Heap),
      List.Forall₂ ItemAligned g₁.items g₂.items →
      (classIds classes).Nodup →
      (∀ c ∈ classes, ∀ nm ∈ c.methods, ∃ r₁ r₂,
        h₁.methodRecs.get? nm.2 = some r₁ ∧ h₂.methodRecs.get? nm.2 = some r₂ ∧
        RecEvolved ic c.meta.group r₁ r₂) →
      ((sortClassesLoop ic classes g₁ h₁).1 = none ∧
        (sortClassesLoop ic classes g₂ h₂).1 = none) ∨
      (∃ g₁' g₂', (sortClassesLoop ic classes g₁ h₁).1 = some g₁' ∧
        (sortClassesLoop ic classes g₂ h₂).1 = some g₂' ∧
        List.Forall₂ ItemAligned g₁'.items g₂'.items) := by
  intro classes
  induction classes with
  | nil =>
    intro g₁ g₂ h₁ h₂ hal hnd hrecs
    exact Or.inr ⟨g₁, g₂, rfl, rfl, hal⟩
  | cons c cs ih =>
    intro g₁ g₂ h₁ h₂ hal hnd hrecs
    have hsplit : classIds (c :: cs) = c.methods.map (fun nm => nm.2) ++ classIds cs := by
      simp [classIds, List.cons_bind]
    rw [hsplit] at hnd
    obtain ⟨hndc, hndcs, hdisj⟩ := List.nodup_append.mp hnd
    have hrecsI : ∀ c' ∈ c :: cs, ∀ nm ∈ c'.methods, ∃ r₁ r₂,
        (inspectAction c h₁).2.methodRecs.get? nm.2 = some r₁ ∧
        (inspectAction c h₂).2.methodRecs.get? nm.2 = some r₂ ∧
        RecEvolved ic c'.meta.group r₁ r₂ := by
      intro c' hc' nm hnm
      obtain ⟨r₁, r₂, hr₁, hr₂, hre⟩ := hrecs c' hc' nm hnm
      obtain ⟨a₁, hI₁⟩ := inspectAction_get?_form c h₁ nm.2 hr₁
      obtain ⟨a₂, hI₂⟩ := inspectAction_get?_form c h₂ nm.2 hr₂
      exact ⟨_, _, hI₁, hI₂, recEvolved_actionClass hre a₁ a₂⟩
    simp only [sortClassesLoop]
    have hstep : ((if ic = true then addActionToGraph g₁ c.meta.group c.meta.fulfills
          c.meta.dependsOn (GNode.cls (inspectAction c h₁).1) else some g₁) = none ∧
        (if ic = true then addActionToGraph g₂ c.meta.group c.meta.fulfills
          c.meta.dependsOn (GNode.cls (inspectAction c h₂).1) else some g₂) = none) ∨
        (∃ gg₁ gg₂,
          (if ic = true then addActionToGraph g₁ c.meta.group c.meta.fulfills
            c.meta.dependsOn (GNode.cls (inspectAction c h₁).1) else some g₁) = some gg₁ ∧
          (if ic = true then addActionToGraph g₂ c.meta.group c.meta.fulfills
            c.meta.dependsOn (GNode.cls (inspectAction c h₂).1) else some g₂) = some gg₂ ∧
          List.Forall₂ ItemAligned gg₁.items gg₂.items) := by
      by_cases hic : ic = true
      · rcases addActionToGraph_aligned hal c.meta.group c.meta.fulfills c.meta.dependsOn
            [] (GNode.cls (inspectAction c h₁).1) (GNode.cls (inspectAction c h₂).1)
            (fun s hs => absurd hs (List.not_mem_nil s)) with
          ⟨ha₁, ha₂⟩ | ⟨gg₁, gg₂, ha₁, ha₂, hgg⟩
        · rw [List.append_nil] at ha₂
          exact Or.inl ⟨by rw [if_pos hic]; exact ha₁, by rw [if_pos hic]; exact ha₂⟩
        · rw [List.append_nil] at ha₂
          exact Or.inr ⟨gg₁, gg₂, by rw [if_pos hic]; exact ha₁,
            by rw [if_pos hic]; exact ha₂, hgg⟩
      · exact Or.inr ⟨g₁, g₂, by rw [if_neg hic], by rw [if_neg hic], hal⟩
    rcases hstep with ⟨e₁, e₂⟩ | ⟨gg₁, gg₂, e₁, e₂, hgg⟩
    · rw [e₁, e₂]
      exact Or.inl ⟨rfl, rfl⟩
    · simp only [e₁, e₂]
      obtain ⟨hres, hframe⟩ := sortMethodsLoop_sim ic c.meta.group c.methods gg₁ gg₂
        (inspectAction c h₁).2 (inspectAction c h₂).2 hgg hndc
        (fun nm hnm => hrecsI c (List.mem_cons_self _ _) nm hnm)
      rcases hE₁ : sortMethodsLoop ic c.meta.group c.methods gg₁ (inspectAction c h₁).2
        with ⟨og₁, hh₁⟩
      rcases hE₂ : sortMethodsLoop ic c.meta.group c.methods gg₂ (inspectAction c h₂).2
        with ⟨og₂, hh₂⟩
      rw [hE₁, hE₂] at hres
      rcases hres with ⟨hn₁, hn₂⟩ | ⟨gg₁', gg₂', hs₁, hs₂, hgg'⟩
      · have hn₁' : og₁ = none := hn₁
        have hn₂' : og₂ = none := hn₂
        subst hn₁'
        subst hn₂'
        exact Or.inl ⟨rfl, rfl⟩
      · have hs₁' : og₁ = some gg₁' := hs₁
        have hs₂' : og₂ = some gg₂' := hs₂
        subst hs₁'
        subst hs₂'
        have hrecs' : ∀ c' ∈ cs, ∀ nm ∈ c'.methods, ∃ r₁ r₂,
            hh₁.methodRecs.get? nm.2 = some r₁ ∧ hh₂.methodRecs.get? nm.2 = some r₂ ∧
            RecEvolved ic c'.meta.group r₁ r₂ := by
          intro c' hc' nm hnm
          have hni : nm.2 ∉ c.methods.map (fun nm => nm.2) := by
            intro hmem
            exact hdisj hmem (by
              simp only [classIds, List.mem_bind]
              exact ⟨c', hc', List.mem_map.mpr ⟨nm, hnm, rfl⟩⟩)
          obtain ⟨r₁, r₂, hr₁, hr₂, hre⟩ := hrecsI c' (List.mem_cons_of_mem _ hc') nm hnm
          obtain ⟨hf₁, hf₂⟩ := hframe nm.2 hni
          rw [hE₁] at hf₁
          rw [hE₂] at hf₂
          have hf₁' : hh₁.methodRecs.get? nm.2 =
              (inspectAction c h₁).2.methodRecs.get? nm.2 := hf₁
          have hf₂' : hh₂.methodRecs.get? nm.2 =
              (inspectAction c h₂).2.methodRecs.get? nm.2 := hf₂
          exact ⟨r₁, r₂, hf₁'.trans hr₁, hf₂'.trans hr₂, hre⟩
        exact ih gg₁' gg₂' hh₁ hh₂ hgg' hndcs hrecs'

theorem sortActions_snd (classes : List ActionClassReg) (ic rk : Bool) (h : Heap) :
    (sortActions classes ic rk h).2 = (sortClassesLoop ic classes TopoGraph.empty h).2 := by
  unfold sortActions
  rcases hE : sortClassesLoop ic classes TopoGraph.empty h with ⟨og, h'⟩
  cases og with
  | none => rfl
  | some g => cases rk <;> rfl

theorem sortActions_fst (classes : List ActionClassReg) (ic rk : Bool) (h : Heap) :
    ((sortClassesLoop ic classes TopoGraph.empty h).1 = none ∧
      (sortActions classes ic rk h).1 = none) ∨
    (∃ g, (sortClassesLoop ic classes TopoGraph.empty h).1 = some g ∧
      (sortActions classes ic rk h).1 =
        some ⟨g, if rk then g.nodes.filter isObjectNode else g.nodes⟩) := by
  unfold sortActions
  rcases hE : sortClassesLoop ic classes TopoGraph.empty h with ⟨og, h'⟩
  cases og with
  | none => exact Or.inl ⟨rfl, rfl⟩
  | some g =>
    refine Or.inr ⟨g, rfl, ?_⟩
    cases rk <;> rfl

/-- C3: for a fixed class list and fixed flags the sort is deterministic.
`sortActionClasses` reads only the immutable class records, so repeated calls
are literally the same value. `sortActions` threads the mutable registry, and
its repetition is stated against the heap the first call left behind: when the
referenced record indices are distinct (one registry record per decorated
method) and valid, the second call fails exactly when the first did, and
otherwise both calls build graphs whose item sequences and whose sorted
outputs carry identical group sequences — the same total order, the only
per-call difference being the fresh `ActionClass` descriptors inside the
nodes. No tie is ever resolved nondeterministically: the embedding is a pure
function of the class list, the flags and the heap. -/
theorem sortActions_deterministic (classes : List ActionClassReg)
    (ic rk : Bool) (h : Heap)
    (hnd : (classIds classes).Nodup)
    (hval : ∀ i ∈ classIds classes, ∃ r, h.methodRecs.get? i = some r) :
    sortActionClasses classes rk = sortActionClasses classes rk ∧
    (((sortActions classes ic rk h).1 = none ∧
        (sortActions classes ic rk (sortActions classes ic rk h).2).1 = none) ∨
      (∃ ag₁ ag₂,
        (sortActions classes ic rk h).1 = some ag₁ ∧
        (sortActions classes ic rk (sortActions classes ic rk h).2).1 = some ag₂ ∧
        ag₁.graph.items.map (fun it => it.group) =
          ag₂.graph.items.map (fun it => it.group) ∧
        ((topoSort ag₁.graph.items).getD []).map (fun it => it.group) =
          ((topoSort ag₂.graph.items).getD []).map (fun it => it.group))) := by
  refine ⟨rfl, ?_⟩
  have hax := sortClassesLoop_frame ic classes TopoGraph.empty h hnd
  have hrecs : ∀ c ∈ classes, ∀ nm ∈ c.methods, ∃ r₁ r₂,
      h.methodRecs.get? nm.2 = some r₁ ∧
      (sortActions classes ic rk h).2.methodRecs.get? nm.2 = some r₂ ∧
      RecEvolved ic c.meta.group r₁ r₂ := by
    intro c hc nm hnm
    have hmem : nm.2 ∈ classIds classes := by
      simp only [classIds, List.mem_bind]
      exact ⟨c, hc, List.mem_map.mpr ⟨nm, hnm, rfl⟩⟩
    obtain ⟨r, hr⟩ := hval nm.2 hmem
    obtain ⟨k, ac, hk, hk0⟩ := hax.2 c hc nm hnm r hr
    refine ⟨r, { r with
        dependsOn := r.dependsOn ++ List.replicate k c.meta.group,
        actionClass := ac }, hr, ?_, ?_⟩
    · rw [sortActions_snd]
      exact hk
    · exact ⟨rfl, rfl, k, rfl, hk0⟩
  have hsim := sortClassesLoop_sim ic classes TopoGraph.empty TopoGraph.empty
    h (sortActions classes ic rk h).2 List.Forall₂.nil hnd hrecs
  rcases hsim with ⟨hn₁, hn₂⟩ | ⟨g₁, g₂, hs₁, hs₂, hg⟩
  · rcases sortActions_fst classes ic rk h with ⟨_, hf₁⟩ | ⟨g, hgE, _⟩
    · rcases sortActions_fst classes ic rk (sortActions classes ic rk h).2 with
        ⟨_, hf₂⟩ | ⟨g', hgE', _⟩
      · exact Or.inl ⟨hf₁, hf₂⟩
      · rw [hgE'] at hn₂
        cases hn₂
    · rw [hgE] at hn₁
      cases hn₁
  · rcases sortActions_fst classes ic rk h with ⟨hnE, _⟩ | ⟨g, hgE, hfst₁⟩
    · rw [hnE] at hs₁
      cases hs₁
    · rcases sortActions_fst classes ic rk (sortActions classes ic rk h).2 with
        ⟨hnE', _⟩ | ⟨g', hgE', hfst₂⟩
      · rw [hnE'] at hs₂
        cases hs₂
      · have eg₁ : g = g₁ := by
          rw [hgE] at hs₁
          exact Option.some.inj hs₁
        have eg₂ : g' = g₂ := by
          rw [hgE'] at hs₂
          exact Option.some.inj hs₂
        subst eg₁
        subst eg₂
        refine Or.inr ⟨_, _, hfst₁, hfst₂, forall₂_aligned_map_group hg, ?_⟩
        rcases topoSort_aligned hg with ⟨t₁, t₂⟩ | ⟨s, s', ht₁, ht₂, hss⟩
        · rw [t₁, t₂]
        · rw [ht₁, ht₂]
          exact forall₂_aligned_map_group hss

/-- The class list and heap of the determinism witness: one class of group
`"logging"` with one decorated method whose registry record is heap cell 0. -/
def c3Classes : List ActionClassReg :=
  [⟨⟨"Logging", "logging", ["log"], []⟩, [("log", 0)]⟩]

def c3Heap : Heap :=
  ⟨[⟨"logging.log", ["log"], [], "log", none, none⟩], []⟩

/-- Witness for C3 at a concrete one-class registry. -/
theorem sortActions_deterministic_witness :
    ((classIds c3Classes).Nodup ∧
      (∀ i ∈ classIds c3Classes, ∃ r, c3Heap.methodRecs.get? i = some r)) ∧
    (sortActionClasses c3Classes false = sortActionClasses c3Classes false ∧
      (((sortActions c3Classes true false c3Heap).1 = none ∧
          (sortActions c3Classes true false
            (sortActions c3Classes true false c3Heap).2).1 = none) ∨
        (∃ ag₁ ag₂,
          (sortActions c3Classes true false c3Heap).1 = some ag₁ ∧
          (sortActions c3Classes true false
            (sortActions c3Classes true false c3Heap).2).1 = some ag₂ ∧
          ag₁.graph.items.map (fun it => it.group) =
            ag₂.graph.items.map (fun it => it.group) ∧
          ((topoSort ag₁.graph.items).getD []).map (fun it => it.group) =
            ((topoSort ag₂.graph.items).getD []).map (fun it => it.group)))) :=
  ⟨⟨by decide, fun i hi => by
      simp only [c3Classes, classIds, List.mem_bind] at hi
      obtain ⟨c, hc, hmem⟩ := hi
      simp only [List.mem_singleton] at hc
      subst hc
      simp only [List.map, List.mem_singleton] at hmem
      subst hmem
      exact ⟨⟨"logging.log", ["log"], [], "log", none, none⟩, rfl⟩⟩,
    sortActions_deterministic c3Classes true false c3Heap (by decide)
      (fun i hi => by
        simp only [c3Classes, classIds, List.mem_bind] at hi
        obtain ⟨c, hc, hmem⟩ := hi
        simp only [List.mem_singleton] at hc
        subst hc
        simp only [List.map, List.mem_singleton] at hmem
        subst hmem
        exact ⟨⟨"logging.log", ["log"], [], "log", none, none⟩, rfl⟩)⟩

end LoopbackAction
